import Mathlib

/-!
# Verification of the lammy front end and evaluator

A shallow embedding, in Lean 4, of the lammy pipeline:

* the lexer (`src/syntax/lexer.rs`, whose token production agrees with the
  snapshot in `src/lexer.rs` up to the classification of a few `Unknown`
  bytes), producing a stream of tokens from source text;
* the error-recovering tree builder (`src/syntax/parser/tree_builder.rs`),
  which produces full-fidelity untyped syntax trees;
* the tree extractor (`src/syntax/parser/ast/from_untyped.rs`);
* the desugarer and resolver (`src/terms.rs`);
* the normalization-by-evaluation engine (`src/nbe.rs`).

Modelling conventions, used throughout:

* Source text is a `List Char`; positions count characters where Rust counts
  bytes.  No theorem below depends on the numeric values of spans, only on
  their being carried along exactly as the code does.
* Interned `Rc<String>` token text is plain `List Char` (interning only
  affects sharing, not values).
* Rust functions that recurse or loop are given an explicit fuel argument
  (first argument, a `Nat`), so that every definition is structurally
  recursive and computable by the kernel.  Exhausting the fuel returns a
  designated default; all theorems either supply concrete ample fuel or
  hypothesise enough fuel (`parseModule` itself computes a provably
  sufficient fuel from the input).
* Rust `panic!`/`unreachable!` sites are modelled by a `panicked` flag in the
  builder state (for the tree builder) or by `Option`/`none` (elsewhere);
  `debug_assert!` calls are no-ops in release builds and are not modelled.
-/

namespace Lammy

/-- A half-open span of positions, as in `src/source.rs` (`Span`). -/
structure Span where
  start : Nat
  stop : Nat
deriving DecidableEq, Repr

/-- `Span::combine_with`: the smallest span covering both. -/
def Span.combineWith (a b : Span) : Span :=
  ⟨min a.start b.start, max a.stop b.stop⟩

/-- Token kinds, from `src/syntax/lexer/tokens.rs` (`TokenKind`). -/
inductive TokenKind where
  | lparen | rparen | lbrace | rbrace | comma | semi | equals | arrow
  | name | alias | string | untermString | comment | whitespace | eof
  | unknown
deriving DecidableEq, Repr

/-- `TokenKind::is_trivial`. -/
def TokenKind.isTrivial : TokenKind → Bool
  | .whitespace | .comment | .unknown => true
  | _ => false

/-- A token: kind, (interned) text and source span, as in `tokens.rs`. -/
structure Token where
  kind : TokenKind
  text : List Char
  span : Span
deriving DecidableEq, Repr

def Token.isTrivial (t : Token) : Bool := t.kind.isTrivial

/-! ## The lexer (`src/syntax/lexer.rs`)

`read_next` consumes one token's worth of characters.  We model it as
`classify`, which given the first character `c` and the remaining characters
`cs` returns the token kind, the characters consumed *after* `c`, and the
rest of the input.  `eat_while pred` is `List.takeWhile`/`List.dropWhile`. -/

def isNameStart (c : Char) : Bool := 'a' ≤ c ∧ c ≤ 'z'

def isAliasStart (c : Char) : Bool := 'A' ≤ c ∧ c ≤ 'Z'

def isNameContinue (c : Char) : Bool :=
  ('a' ≤ c ∧ c ≤ 'z') ∨ ('A' ≤ c ∧ c ≤ 'Z') ∨ ('0' ≤ c ∧ c ≤ '9') ∨
    c = '*' ∨ c = '+' ∨ c = Char.ofNat 39 ∨ c = '?'

def isAliasContinue (c : Char) : Bool := isNameContinue c

def isWhitespaceChar (c : Char) : Bool :=
  c = ' ' ∨ c = '\t' ∨ c = '\n' ∨ c = '\r'

/-- `Lexer::is_unknown`: the complement of every other classifier. -/
def isUnknown (c : Char) : Bool :=
  ¬ (c = '(' ∨ c = ')' ∨ c = Char.ofNat 123 ∨ c = Char.ofNat 125 ∨
     c = ',' ∨ c = ';' ∨ c = '=' ∨ c = Char.ofNat 92 ∨ c = '#' ∨
     c = '\n' ∨ c = '\r' ∨
     isNameStart c ∨ isAliasStart c ∨ isWhitespaceChar c)

def notNewline (c : Char) : Bool := ¬ (c = '\n' ∨ c = '\r')

/-- `Lexer::read_string`, after the opening quote has been consumed.
Returns the kind (`String` if a closing quote is found on the same line,
`UnterminatedString` otherwise), the characters consumed, and the rest. -/
def readString (esc : Bool) : List Char → TokenKind × List Char × List Char
  | [] => (.untermString, [], [])
  | c :: cs =>
    if c = Char.ofNat 34 ∧ esc = false then (.string, [c], cs)
    else if c = Char.ofNat 92 ∧ esc = false then
      let (k, ex, r) := readString true cs
      (k, c :: ex, r)
    else if c = '\n' ∨ c = '\r' then (.untermString, [], c :: cs)
    else
      let (k, ex, r) := readString false cs
      (k, c :: ex, r)

/-- The dispatch in `Lexer::read_next`, after consuming the first character
`c`.  Returns the kind, the extra characters consumed, and the rest. -/
def classify (c : Char) (cs : List Char) : TokenKind × List Char × List Char :=
  if c = '(' then (.lparen, [], cs)
  else if c = ')' then (.rparen, [], cs)
  else if c = Char.ofNat 123 then (.lbrace, [], cs)
  else if c = Char.ofNat 125 then (.rbrace, [], cs)
  else if c = ',' then (.comma, [], cs)
  else if c = ';' then (.semi, [], cs)
  else if c = '=' then
    match cs with
    | '>' :: r => (.arrow, ['>'], r)
    | _ => (.equals, [], cs)
  else if c = '#' then (.comment, cs.takeWhile notNewline, cs.dropWhile notNewline)
  else if c = Char.ofNat 34 then readString false cs
  else if isNameStart c then (.name, cs.takeWhile isNameContinue, cs.dropWhile isNameContinue)
  else if isAliasStart c then (.alias, cs.takeWhile isAliasContinue, cs.dropWhile isAliasContinue)
  else if isWhitespaceChar c then (.whitespace, cs.takeWhile isWhitespaceChar, cs.dropWhile isWhitespaceChar)
  else (.unknown, cs.takeWhile isUnknown, cs.dropWhile isUnknown)

/-- `Lexer::extract_text`: the token text is the consumed slice, except that
a `String` loses both delimiting quotes and an `UnterminatedString` loses
its opening quote. -/
def extractText (k : TokenKind) (consumed : List Char) : List Char :=
  match k with
  | .string => (consumed.drop 1).dropLast
  | .untermString => consumed.drop 1
  | _ => consumed

/-- One step of the lexer: build the token for `c :: cs` at position `pos`. -/
def readNext (pos : Nat) (c : Char) (cs : List Char) : Token × Nat × List Char :=
  let (k, ex, r) := classify c cs
  (⟨k, extractText k (c :: ex), ⟨pos, pos + (c :: ex).length⟩⟩,
   pos + (c :: ex).length, r)

/-- The full token stream of a source text (`Eof` is not materialised: the
token stream ends and the builder's peek/pop synthesise `Eof` tokens).
Fuel-recursive; `tokenize` supplies sufficient fuel. -/
def tokenizeF : Nat → Nat → List Char → List Token
  | 0, _, _ => []
  | _ + 1, _, [] => []
  | n + 1, pos, c :: cs =>
    let (t, pos', r) := readNext pos c cs
    t :: tokenizeF n pos' r

def tokenize (cs : List Char) : List Token := tokenizeF cs.length 0 cs

/-- Concatenated texts of a token sequence. -/
def toksText (ts : List Token) : List Char := (ts.map Token.text).flatten

theorem readString_split (cs : List Char) : ∀ esc,
    cs = (readString esc cs).2.1 ++ (readString esc cs).2.2 := by
  induction cs with
  | nil => intro esc; simp [readString]
  | cons c cs ih =>
    intro esc
    simp only [readString]
    split
    · simp
    · split
      · have := ih true
        simp only [List.cons_append]
        exact congrArg (c :: ·) this
      · split
        · simp
        · have := ih false
          simp only [List.cons_append]
          exact congrArg (c :: ·) this

theorem readString_kind (cs : List Char) : ∀ esc,
    (readString esc cs).1 = .string ∨ (readString esc cs).1 = .untermString := by
  induction cs with
  | nil => intro esc; simp [readString]
  | cons c cs ih =>
    intro esc
    simp only [readString]
    split
    · simp
    · split
      · exact ih true
      · split
        · simp
        · exact ih false

set_option maxHeartbeats 1000000 in
/-- The three key facts about one lexer step: no `Eof` token is produced,
the consumed slice plus the rest reassemble the input, and `String`-class
tokens arise only from a leading quote. -/
theorem classify_spec (c : Char) (cs : List Char) :
    (classify c cs).1 ≠ .eof ∧
    cs = (classify c cs).2.1 ++ (classify c cs).2.2 ∧
    (((classify c cs).1 = .string ∨ (classify c cs).1 = .untermString) →
      c = Char.ofNat 34) := by
  unfold classify
  by_cases h1 : c = '('
  · simp [h1]
  rw [if_neg h1]
  by_cases h2 : c = ')'
  · simp [h2]
  rw [if_neg h2]
  by_cases h3 : c = Char.ofNat 123
  · simp [h3]
  rw [if_neg h3]
  by_cases h4 : c = Char.ofNat 125
  · simp [h4]
  rw [if_neg h4]
  by_cases h5 : c = ','
  · simp [h5]
  rw [if_neg h5]
  by_cases h6 : c = ';'
  · simp [h6]
  rw [if_neg h6]
  by_cases h7 : c = '='
  · rw [if_pos h7]
    split
    · simp
    · simp
  rw [if_neg h7]
  by_cases h8 : c = '#'
  · simp [h8, List.takeWhile_append_dropWhile]
  rw [if_neg h8]
  by_cases h9 : c = Char.ofNat 34
  · rw [if_pos h9]
    refine ⟨?_, readString_split cs false, fun _ => h9⟩
    rcases readString_kind cs false with h | h <;> simp [h]
  rw [if_neg h9]
  by_cases h10 : isNameStart c
  · simp [h10, List.takeWhile_append_dropWhile]
  rw [if_neg (by simpa using h10)]
  by_cases h11 : isAliasStart c
  · simp [h11, List.takeWhile_append_dropWhile]
  rw [if_neg (by simpa using h11)]
  by_cases h12 : isWhitespaceChar c
  · simp [h12, List.takeWhile_append_dropWhile]
  rw [if_neg (by simpa using h12)]
  simp [List.takeWhile_append_dropWhile]

theorem classify_split (c : Char) (cs : List Char) :
    cs = (classify c cs).2.1 ++ (classify c cs).2.2 :=
  (classify_spec c cs).2.1

theorem classify_ne_eof (c : Char) (cs : List Char) : (classify c cs).1 ≠ .eof :=
  (classify_spec c cs).1

theorem classify_string_quote (c : Char) (cs : List Char)
    (h : (classify c cs).1 = .string ∨ (classify c cs).1 = .untermString) :
    c = Char.ofNat 34 :=
  (classify_spec c cs).2.2 h

theorem extractText_of_not_string (k : TokenKind) (l : List Char)
    (h1 : k ≠ .string) (h2 : k ≠ .untermString) : extractText k l = l := by
  cases k <;> simp_all [extractText]

/-- On quote-free input every produced token's text is exactly the consumed
slice, so concatenating the texts reproduces the input. -/
theorem tokenizeF_text (n : Nat) : ∀ (pos : Nat) (cs : List Char),
    cs.length ≤ n → (∀ c ∈ cs, c ≠ Char.ofNat 34) →
    toksText (tokenizeF n pos cs) = cs := by
  induction n with
  | zero =>
    intro pos cs hlen _
    have : cs = [] := List.eq_nil_of_length_eq_zero (Nat.le_zero.mp hlen)
    subst this; simp [tokenizeF, toksText]
  | succ n ih =>
    intro pos cs hlen hq
    match cs with
    | [] => simp [tokenizeF, toksText]
    | c :: cs =>
      have hkind : (classify c cs).1 ≠ .string ∧ (classify c cs).1 ≠ .untermString := by
        constructor <;> intro hk
        · exact hq c (by simp) (classify_string_quote c cs (Or.inl hk))
        · exact hq c (by simp) (classify_string_quote c cs (Or.inr hk))
      have hsplit := classify_split c cs
      rcases hcl : classify c cs with ⟨k, ex, r⟩
      rw [hcl] at hsplit hkind
      have hr : r.length ≤ n := by
        have h1 : cs.length ≤ n := by simpa using hlen
        have h2 : r.length ≤ cs.length := by
          rw [hsplit]; simp
        omega
      have hqr : ∀ x ∈ r, x ≠ Char.ofNat 34 := by
        intro x hx
        exact hq x (by rw [hsplit]; simp [hx])
      simp only [tokenizeF, readNext, hcl, toksText, List.map_cons,
        List.flatten_cons]
      have htext : extractText k (c :: ex) = c :: ex :=
        extractText_of_not_string k (c :: ex) hkind.1 hkind.2
      rw [htext]
      have hrec := ih (pos + (c :: ex).length) r hr hqr
      simp only [toksText] at hrec
      rw [hrec]
      simp only [hsplit]
      simp

/-- The lexer never materialises an `Eof` token. -/
theorem tokenizeF_ne_eof (n : Nat) : ∀ (pos : Nat) (cs : List Char),
    ∀ t ∈ tokenizeF n pos cs, t.kind ≠ .eof := by
  induction n with
  | zero => intro pos cs t ht; simp [tokenizeF] at ht
  | succ n ih =>
    intro pos cs t ht
    match cs with
    | [] => simp [tokenizeF] at ht
    | c :: cs =>
      have hne := classify_ne_eof c cs
      rcases hcl : classify c cs with ⟨k, ex, r⟩
      rw [hcl] at hne
      simp only [tokenizeF, readNext, hcl, List.mem_cons] at ht
      rcases ht with h | h
      · subst h; exact hne
      · exact ih _ r t h

/-! ## Untyped syntax trees and the tree builder state
(`src/syntax/parser/untyped_tree.rs`, `src/syntax/parser/tree_builder.rs`)

The Rust builder owns a `Lexer` (pop/peek with an internal queue), a `wip`
stack of entries (`Vec`, pushed and popped at the back), an error sink and
the end position of the last popped token.  We model the token stream as the
list of not-yet-popped tokens (peeking or popping past the end synthesises
`Eof` tokens, as the Rust lexer does), and the `wip` stack as a list whose
head is the top (the `Vec`'s back).  `panic!`/`unreachable!` sites set the
`panicked` flag and return immediately. -/

/-- `SyntaxKind` from `untyped_tree.rs` (`ReplInput` is not modelled: none
of the verified properties concern REPL input). -/
inductive SyntaxKind where
  | module | def_ | imp | impAliases | impFilepath | tms | var | aliasK
  | abs | absVars | name | badName | missing
deriving DecidableEq, Repr

/-- `UntypedTree`: interior nodes carry kind, span and children; leaves are
tokens. -/
inductive UntypedTree where
  | inner (kind : SyntaxKind) (span : Span) (children : List UntypedTree)
  | leaf (tok : Token)

/-- `SimpleError` from `src/errors.rs`: a message and a span. -/
structure SimpleError where
  message : String
  span : Span
deriving DecidableEq, Repr

/-- `Entry` from `tree_builder.rs`. -/
inductive Entry where
  | inProgress (kind : SyntaxKind) (start : Nat)
  | complete (tree : UntypedTree)

/-- The `TreeBuilder` state.  `toks` are the not-yet-popped tokens; `eofPos`
is the position at the end of the source (where synthesised `Eof` tokens
live); `panicked` records that a `panic!`/`unreachable!` would have fired. -/
structure BState where
  toks : List Token
  eofPos : Nat
  wip : List Entry
  errors : List SimpleError
  pos : Nat
  panicked : Bool

/-- The `Eof` token the lexer synthesises at the end of input. -/
def eofToken (p : Nat) : Token := ⟨.eof, [], ⟨p, p⟩⟩

/-- `Lexer::peek`, as seen by the builder. -/
def peekT (s : BState) : Token := s.toks.headD (eofToken s.eofPos)

def peekKind (s : BState) : TokenKind := (peekT s).kind

/-- `Lexer::pop`, as seen by the builder. -/
def popT (s : BState) : Token × BState :=
  match s.toks with
  | [] => (eofToken s.eofPos, s)
  | t :: r => (t, { s with toks := r })

/-- `TreeBuilder::leaf`. -/
def pushLeaf (s : BState) (t : Token) : BState :=
  { s with pos := t.span.stop, wip := .complete (.leaf t) :: s.wip }

/-- `TreeBuilder::pop_leaf`. -/
def popLeaf (s : BState) : BState :=
  let (t, s') := popT s
  pushLeaf s' t

/-- `TreeBuilder::open`. -/
def openNode (k : SyntaxKind) (s : BState) : BState :=
  { s with wip := .inProgress k s.pos :: s.wip }

/-- The loop in `TreeBuilder::close`: pop completed entries into `acc`
until the matching `in_progress` entry is found.  A kind mismatch is the
`panic!`; running off the bottom of the stack silently leaves it empty, as
the Rust `while let` loop does.  Collecting children by prepending to `acc`
yields the same order as Rust's collect-then-reverse. -/
def closeGo (k : SyntaxKind) (s : BState) : List Entry → List UntypedTree → BState
  | [], _ => { s with wip := [] }
  | .inProgress k' start :: rest, acc =>
    if k' = k then
      { s with wip := .complete (.inner k ⟨start, s.pos⟩ acc) :: rest }
    else
      { s with panicked := true }
  | .complete c :: rest, acc => closeGo k s rest (c :: acc)

/-- `TreeBuilder::close`. -/
def closeNode (k : SyntaxKind) (s : BState) : BState := closeGo k s s.wip []

/-- `TreeBuilder::error`. -/
def errorB (msg : String) (sp : Span) (s : BState) : BState :=
  { s with errors := s.errors ++ [⟨msg, sp⟩] }

/-- `TreeBuilder::missing`. -/
def missingB (s : BState) : BState := closeNode .missing (openNode .missing s)

/-- `TreeBuilder::skip_trivia` (fuelled loop). -/
def skipTriviaF : Nat → BState → BState
  | 0, s => s
  | n + 1, s =>
    match peekKind s with
    | .whitespace | .comment => skipTriviaF n (popLeaf s)
    | .unknown =>
      skipTriviaF n (popLeaf (errorB "unknown token" (peekT s).span s))
    | _ => s

/-- The loop in `TreeBuilder::skip_to_decl_separator`, returning the span of
the token where it stopped. -/
def skipToDeclGo : Nat → BState → Span × BState
  | 0, s => ((peekT s).span, s)
  | n + 1, s =>
    match peekKind s with
    | .semi | .eof => ((peekT s).span, s)
    | _ => skipToDeclGo n (popLeaf s)

/-- `TreeBuilder::skip_to_decl_separator`. -/
def skipToDeclSep (n : Nat) (s : BState) : Span × BState :=
  let startSpan := (peekT s).span
  let (endSpan, s') := skipToDeclGo n s
  (startSpan.combineWith endSpan, s')

/-! ### The three lookahead predicates (`starts_single_abs`,
`starts_abs_names`, `starts_def`).  They scan `peek_ahead(1), peek_ahead(2),
…`; scanning past the end of the stream sees `Eof`, which is neither trivial
nor any of the sought kinds, so the empty list yields `false`. -/

def startsSingleAbsGo : List Token → Bool
  | [] => false
  | t :: r => if t.isTrivial then startsSingleAbsGo r else t.kind = .arrow

/-- `TreeBuilder::starts_single_abs`. -/
def startsSingleAbs (s : BState) : Bool := startsSingleAbsGo (s.toks.drop 1)

def startsAbsNamesAfter : List Token → Bool
  | [] => false
  | t :: r => if t.isTrivial then startsAbsNamesAfter r else t.kind = .arrow

def startsAbsNamesGo : List Token → Bool
  | [] => false
  | t :: r =>
    if t.isTrivial then startsAbsNamesGo r
    else
      match t.kind with
      | .name | .alias => startsAbsNamesGo r
      | .comma | .arrow => true
      | .rparen => startsAbsNamesAfter r
      | _ => false

/-- `TreeBuilder::starts_abs_names`. -/
def startsAbsNames (s : BState) : Bool := startsAbsNamesGo (s.toks.drop 1)

def startsDefGo : List Token → Bool
  | [] => false
  | t :: r => if t.isTrivial then startsDefGo r else t.kind = .equals

/-- `TreeBuilder::starts_def`. -/
def startsDef (s : BState) : Bool := startsDefGo (s.toks.drop 1)

/-! ### The recursive parsing functions

The mutually recursive parsing functions of `TreeBuilder` are modelled as a
single fuelled interpreter `runP` dispatching on a tag.  Loop bodies become
tail-recursive tags (`moduleLoop`, `iaLoop`, `tmsLoop`, `anLoop`); the
`seen_name` mutable of `parse_abs_names` is the `anLoop` tag's argument.
Every recursive call spends one unit of fuel; out of fuel returns the state
unchanged.  `parseModule` below supplies fuel that theorem `runP_spec`
proves sufficient. -/

/-- One tag per parsing function, plus tags for the straight-line
continuations of the longer functions (`modAfter` is the second half of the
`_parse_module` loop body, `defCont1`/`defCont2` of `parse_def`,
`impCont1`/`impCont2` of `parse_import`, `iaPart2`/`anPart2` the second half
of the respective loop bodies).  Dispatching to a continuation tag is just
sequential execution of the same Rust function. -/
inductive PFun where
  | moduleLoop | modAfter | defP | defCont1 | defCont2
  | imp | impCont1 | impCont2 | impAliases | iaLoop | iaPart2
  | tms | tmsLoop | tm | singleAbs | multiAbs | absFromArrow | afterNames
  | absNames | anLoop (seen : Bool) | anPart2 (seen : Bool) | parend
deriving DecidableEq, Repr

def runP : Nat → PFun → BState → BState
  | 0, _, s => s
  | n + 1, f, s =>
    match f with
    | .moduleLoop =>
      -- the loop body of `_parse_module`, up to the declaration parse
      let s1 := skipTriviaF n s
      let catchall := fun (_ : Unit) =>
        let (sp, s2) := skipToDeclSep n s1
        runP n .modAfter
          (errorB "expected definition or import declaration here" sp s2)
      match peekKind s1 with
      | .eof => s1
      | .name =>
        if (peekT s1).text = "import".toList then runP n .modAfter (runP n .imp s1)
        else if startsDef s1 then runP n .modAfter (runP n .defP s1)
        else catchall ()
      | .lbrace | .rbrace | .string | .untermString =>
        runP n .modAfter (runP n .imp s1)
      | .alias =>
        if startsDef s1 then runP n .modAfter (runP n .defP s1) else catchall ()
      | .equals => runP n .modAfter (runP n .defP s1)
      | .semi =>
        runP n .modAfter (errorB "extraneous ';'" (peekT s1).span s1)
      | _ => catchall ()
    | .modAfter =>
      -- the rest of the `_parse_module` loop body: the separator
      let s3 := skipTriviaF n s
      match peekKind s3 with
      | .semi => runP n .moduleLoop (popLeaf s3)
      | .eof => errorB "missing a ';'" (peekT s3).span s3
      | _ =>
        let (sp, s4) := skipToDeclSep n s3
        runP n .moduleLoop (popLeaf (errorB "extraneous input" sp s4))
    | .defP =>
      -- `parse_def`; every non-panicking path ends by closing the `Def`
      let s1 := openNode .def_ s
      match peekKind s1 with
      | .alias =>
        closeNode .def_ (runP n .defCont1 (closeNode .name (popLeaf
          (openNode .name s1))))
      | .name =>
        closeNode .def_ (runP n .defCont1 (closeNode .badName (popLeaf
          (openNode .badName
            (errorB "expected an alias, not a var" (peekT s1).span s1)))))
      | .equals =>
        closeNode .def_ (runP n .defCont1 (missingB
          (errorB "expected an alias name before this" (peekT s1).span s1)))
      | _ => { s1 with panicked := true }  -- unreachable!()
    | .defCont1 =>
      -- `parse_def` after the alias: the `=`
      let s3 := skipTriviaF n s
      match peekKind s3 with
      | .equals => runP n .defCont2 (popLeaf s3)
      | .name | .alias | .lparen | .comma | .arrow =>
        runP n .defCont2
          (errorB "expected an '=' before this" (peekT s3).span s3)
      | _ =>
        missingB (errorB "expected an '=', followed by a term before this"
          (peekT s3).span s3)
    | .defCont2 =>
      -- `parse_def` after the `=`: the body
      runP n .tms (skipTriviaF n s)
    | .imp =>
      -- `parse_import`; every non-panicking path ends by closing the `Import`
      let s1 := openNode .imp s
      match peekKind s1 with
      | .name =>
        if (peekT s1).text = "import".toList then
          closeNode .imp (runP n .impCont1 (popLeaf s1))
        else
          closeNode .imp (runP n .impCont1
            (errorB "expected 'import' before this" (peekT s1).span s1))
      | .lbrace | .alias | .comma | .rbrace | .string | .untermString =>
        closeNode .imp (runP n .impCont1
          (errorB "expected 'import' before this" (peekT s1).span s1))
      | _ => { s1 with panicked := true }  -- unreachable!()
    | .impCont1 =>
      -- `parse_import` after the keyword: aliases, then `from`
      let s4 := runP n .impAliases (skipTriviaF n s)
      let s5 := skipTriviaF n s4
      match peekKind s5 with
      | .name =>
        if (peekT s5).text = "from".toList then runP n .impCont2 (popLeaf s5)
        else
          missingB (errorB "expected 'from', followed by a filepath before this"
            (peekT s5).span s5)
      | .string | .untermString =>
        runP n .impCont2 (errorB "expected 'from' before this" (peekT s5).span s5)
      | _ =>
        missingB (errorB "expected 'from', followed by a filepath before this"
          (peekT s5).span s5)
    | .impCont2 =>
      -- `parse_import` after `from`: the filepath
      let s7 := skipTriviaF n s
      match peekKind s7 with
      | .string =>
        closeNode .impFilepath (popLeaf (openNode .impFilepath s7))
      | .untermString =>
        closeNode .impFilepath (popLeaf (openNode .impFilepath
          (errorB "unterminated filepath" (peekT s7).span s7)))
      | _ =>
        missingB (errorB "expected a filepath before this" (peekT s7).span s7)
    | .impAliases =>
      -- `parse_import_aliases` up to and including its loop
      match peekKind s with
      | .lbrace =>
        closeNode .impAliases (runP n .iaLoop (popLeaf (openNode .impAliases s)))
      | .alias | .name | .comma | .rbrace =>
        closeNode .impAliases (runP n .iaLoop
          (errorB "expected a '\x7b' before this" (peekT s).span
            (openNode .impAliases s)))
      | _ =>
        missingB (errorB
          "expected a list of aliases enclosed in '\x7b..\x7d' before this"
          (peekT s).span s)
    | .iaLoop =>
      -- the loop body of `parse_import_aliases`: the alias
      let s1 := skipTriviaF n s
      match peekKind s1 with
      | .alias =>
        runP n .iaPart2 (closeNode .name (popLeaf (openNode .name s1)))
      | .name =>
        runP n .iaPart2 (closeNode .badName (popLeaf (openNode .badName
          (errorB "expected an alias here, not a name" (peekT s1).span s1))))
      | .rbrace => popLeaf s1
      | .comma => runP n .iaPart2 (errorB "extraneous ','" (peekT s1).span s1)
      | _ => errorB "expected a '\x7d' before this" (peekT s1).span s1
    | .iaPart2 =>
      -- the loop body of `parse_import_aliases`: the separator
      let s3 := skipTriviaF n s
      match peekKind s3 with
      | .comma => runP n .iaLoop (popLeaf s3)
      | .rbrace => popLeaf s3
      | .alias | .name =>
        runP n .iaLoop (errorB "expected a ',' before this" (peekT s3).span s3)
      | _ => errorB "expected a '\x7d' before this" (peekT s3).span s3
    | .tms =>
      -- `parse_tms`
      closeNode .tms (runP n .tmsLoop (runP n .tm (openNode .tms s)))
    | .tmsLoop =>
      -- the loop body of `parse_tms`
      let s1 := skipTriviaF n s
      match peekKind s1 with
      | .name | .alias | .lparen | .comma | .arrow =>
        runP n .tmsLoop (runP n .tm s1)
      | _ => s1
    | .tm =>
      -- `parse_tm`
      match peekKind s with
      | .name =>
        if startsSingleAbs s then runP n .singleAbs s
        else closeNode .var (popLeaf (openNode .var s))
      | .alias => closeNode .aliasK (popLeaf (openNode .aliasK s))
      | .lparen =>
        if startsAbsNames s then runP n .multiAbs s else runP n .parend s
      | .comma => runP n .multiAbs s
      | .arrow => runP n .absFromArrow s
      | _ => errorB "expected a term before this" (peekT s).span s
    | .singleAbs =>
      -- `parse_single_abs`
      closeNode .abs (runP n .afterNames (skipTriviaF n
        (closeNode .absVars (closeNode .name (popLeaf
          (openNode .name (openNode .absVars (openNode .abs s))))))))
    | .multiAbs =>
      -- `parse_multi_abs`
      closeNode .abs (runP n .afterNames (skipTriviaF n
        (runP n .absNames (openNode .abs s))))
    | .absFromArrow =>
      -- `parse_abs_from_arrow`
      let s1 := missingB (openNode .abs s)
      let s2 := errorB "expected abstraction var(s) enclosed in '(..)' before this"
        (peekT s1).span s1
      closeNode .abs (runP n .afterNames (skipTriviaF n s2))
    | .afterNames =>
      -- `parse_abs_after_names`
      match peekKind s with
      | .arrow => runP n .tms (skipTriviaF n (popLeaf s))
      | .name | .alias | .lparen | .comma =>
        runP n .tms (skipTriviaF n
          (errorB "expected an '=>' before this" (peekT s).span s))
      | _ =>
        missingB (errorB "expected an '=>', followed by a term before this"
          (peekT s).span s)
    | .absNames =>
      -- `parse_abs_names` up to and including its loop
      let s0 := openNode .absVars s
      match peekKind s0 with
      | .lparen => closeNode .absVars (runP n (.anLoop false) (popLeaf s0))
      | .comma =>
        closeNode .absVars (runP n (.anLoop false)
          (errorB "expected a '(' before this" (peekT s0).span s0))
      | _ => { s0 with panicked := true }  -- unreachable!()
    | .anLoop seen =>
      -- the loop body of `parse_abs_names`, the var; `seen` is `seen_name`
      let s1 := skipTriviaF n s
      match peekKind s1 with
      | .name =>
        runP n (.anPart2 true) (closeNode .name (popLeaf (openNode .name s1)))
      | .alias =>
        runP n (.anPart2 true) (closeNode .badName (popLeaf (openNode .badName
          (errorB "expected a var here, not an alias" (peekT s1).span s1))))
      | .rparen =>
        popLeaf (if seen then s1
          else errorB "expected at least one var before this" (peekT s1).span s1)
      | .comma =>
        runP n (.anPart2 seen) (errorB "extraneous ','" (peekT s1).span s1)
      | _ =>
        let s2 := if seen then s1
          else errorB "expected at least one var before this" (peekT s1).span s1
        errorB "expected a ')' before this" (peekT s1).span s2
    | .anPart2 seen =>
      -- the loop body of `parse_abs_names`, the separator
      let s3 := skipTriviaF n s
      match peekKind s3 with
      | .comma => runP n (.anLoop seen) (popLeaf s3)
      | .rparen => popLeaf s3
      | .name | .alias =>
        runP n (.anLoop seen)
          (errorB "expected a ',' before this" (peekT s3).span s3)
      | _ => errorB "expected a ')' before this" (peekT s3).span s3
    | .parend =>
      -- `parse_parend`
      let lparenSpan := (peekT s).span
      let s4 := skipTriviaF n (runP n .tms (skipTriviaF n (popLeaf s)))
      match peekKind s4 with
      | .rparen => popLeaf s4
      | _ => errorB "unmatched '('" lparenSpan s4

/-- The builder state `TreeBuilder::from(source)` starts from. -/
def initState (cs : List Char) : BState :=
  { toks := tokenize cs, eofPos := cs.length, wip := [], errors := [],
    pos := 0, panicked := false }

/-- Fuel sufficient to run `_parse_module` to completion (`runP_spec`
proves it is more than the measure of any reachable call). -/
def moduleFuel (s : BState) : Nat := 100 * s.toks.length + 200

/-- `TreeBuilder::_parse_module`: open the `Module` node, run the loop,
close it. -/
def parseModuleB (cs : List Char) : BState :=
  let s0 := initState cs
  closeNode .module (runP (moduleFuel s0) .moduleLoop (openNode .module s0))

/-- `TreeBuilder::take`.  Its three `panic!` cases (no tree, unmatched
`open`, multiple toplevel trees) return `none`, as does a `panic!` recorded
earlier during parsing. -/
def takeB (s : BState) : Option (UntypedTree × List SimpleError) :=
  if s.panicked then none
  else
    match s.wip with
    | [.complete t] => some (t, s.errors)
    | _ => none

/-- `TreeBuilder::parse_module`. -/
def parseModule (cs : List Char) : Option (UntypedTree × List SimpleError) :=
  takeB (parseModuleB cs)

/-! ### Leaf text of trees -/

mutual

/-- The concatenated text of every leaf token of a tree, in leaf order. -/
def treeText : UntypedTree → List Char
  | .leaf t => t.text
  | .inner _ _ children => treesText children

def treesText : List UntypedTree → List Char
  | [] => []
  | t :: ts => treeText t ++ treesText ts

end

/-! ### The builder invariant

`Good s s'` says `s'` arose from `s` by consuming a prefix of the tokens
and pushing only *completed* entries onto the stack, whose leaf text is
exactly the consumed tokens' text, without touching the panic flag.  Every
parsing function preserves it (theorem `runP_spec`), which is what makes
`close` and `take` panic-free and the tree full-fidelity. -/

def Entry.text : Entry → List Char
  | .complete t => treeText t
  | .inProgress _ _ => []

/-- Text of a stack fragment in chronological (bottom-first) order. -/
def entriesText (es : List Entry) : List Char :=
  (es.reverse.map Entry.text).flatten

def EntriesOK (es : List Entry) : Prop := ∀ e ∈ es, ∃ t, e = .complete t

def Good (s s' : BState) : Prop :=
  s'.panicked = s.panicked ∧ s'.eofPos = s.eofPos ∧
  ∃ k es, s'.toks = s.toks.drop k ∧ s'.wip = es ++ s.wip ∧ EntriesOK es ∧
    entriesText es = toksText (s.toks.take k)

theorem toksText_append (a b : List Token) :
    toksText (a ++ b) = toksText a ++ toksText b := by
  simp [toksText]

@[simp] theorem errorB_toks (msg sp s) : (errorB msg sp s).toks = s.toks := rfl
@[simp] theorem errorB_wip (msg sp s) : (errorB msg sp s).wip = s.wip := rfl
@[simp] theorem errorB_panicked (msg sp s) :
    (errorB msg sp s).panicked = s.panicked := rfl
@[simp] theorem errorB_eofPos (msg sp s) : (errorB msg sp s).eofPos = s.eofPos := rfl
@[simp] theorem errorB_pos (msg sp s) : (errorB msg sp s).pos = s.pos := rfl
@[simp] theorem openNode_toks (k s) : (openNode k s).toks = s.toks := rfl
@[simp] theorem openNode_panicked (k s) : (openNode k s).panicked = s.panicked := rfl
@[simp] theorem openNode_eofPos (k s) : (openNode k s).eofPos = s.eofPos := rfl
@[simp] theorem openNode_pos (k s) : (openNode k s).pos = s.pos := rfl
@[simp] theorem openNode_errors (k s) : (openNode k s).errors = s.errors := rfl
@[simp] theorem peekT_openNode (k s) : peekT (openNode k s) = peekT s := rfl
@[simp] theorem peekT_errorB (msg sp s) : peekT (errorB msg sp s) = peekT s := rfl
@[simp] theorem peekKind_openNode (k s) : peekKind (openNode k s) = peekKind s := rfl
@[simp] theorem peekKind_errorB (msg sp s) :
    peekKind (errorB msg sp s) = peekKind s := rfl

theorem entriesText_nil : entriesText [] = [] := rfl

theorem entriesText_cons (e : Entry) (es : List Entry) :
    entriesText (e :: es) = entriesText es ++ e.text := by
  simp [entriesText]

theorem entriesText_append (a b : List Entry) :
    entriesText (a ++ b) = entriesText b ++ entriesText a := by
  simp [entriesText]

theorem Good.refl (s : BState) : Good s s :=
  ⟨rfl, rfl, 0, [], by simp, by simp, by simp [EntriesOK], by simp [entriesText, toksText]⟩

theorem Good.trans {s1 s2 s3 : BState} (h12 : Good s1 s2) (h23 : Good s2 s3) :
    Good s1 s3 := by
  obtain ⟨hp12, he12, k1, es1, ht1, hw1, hok1, htx1⟩ := h12
  obtain ⟨hp23, he23, k2, es2, ht2, hw2, hok2, htx2⟩ := h23
  refine ⟨hp23.trans hp12, he23.trans he12, k1 + k2, es2 ++ es1, ?_, ?_, ?_, ?_⟩
  · rw [ht2, ht1, List.drop_drop, Nat.add_comm]
  · rw [hw2, hw1, List.append_assoc]
  · intro e he
    rcases List.mem_append.mp he with h | h
    · exact hok2 e h
    · exact hok1 e h
  · rw [entriesText_append, htx1, htx2, ht1, List.take_add, toksText_append]

theorem Good.toks_le {s s' : BState} (h : Good s s') :
    s'.toks.length ≤ s.toks.length := by
  obtain ⟨-, -, k, es, ht, -⟩ := h
  rw [ht, List.length_drop]
  omega

theorem Good.toks_eq_of_length {s s' : BState} (h : Good s s')
    (hl : s'.toks.length = s.toks.length) : s'.toks = s.toks := by
  obtain ⟨-, -, k, es, ht, -⟩ := h
  rw [ht]
  rw [ht, List.length_drop] at hl
  rcases Nat.eq_zero_or_pos k with hk | hk
  · simp [hk]
  · have : s.toks.length = 0 := by omega
    simp [List.eq_nil_of_length_eq_zero this]

theorem popLeaf_toks (s : BState) : (popLeaf s).toks = s.toks.drop 1 := by
  rcases h : s.toks with _ | ⟨t, r⟩ <;> simp [popLeaf, popT, pushLeaf, h]

theorem popLeaf_wip (s : BState) :
    (popLeaf s).wip = .complete (.leaf (peekT s)) :: s.wip := by
  rcases h : s.toks with _ | ⟨t, r⟩ <;> simp [popLeaf, popT, pushLeaf, peekT, h]

theorem popLeaf_panicked (s : BState) : (popLeaf s).panicked = s.panicked := by
  rcases h : s.toks with _ | ⟨t, r⟩ <;> simp [popLeaf, popT, pushLeaf, h]

theorem popLeaf_eofPos (s : BState) : (popLeaf s).eofPos = s.eofPos := by
  rcases h : s.toks with _ | ⟨t, r⟩ <;> simp [popLeaf, popT, pushLeaf, h]

theorem popLeaf_errors (s : BState) : (popLeaf s).errors = s.errors := by
  rcases h : s.toks with _ | ⟨t, r⟩ <;> simp [popLeaf, popT, pushLeaf, h]

theorem peekT_text_eof {s : BState} (h : s.toks = []) : (peekT s).text = [] := by
  simp [peekT, h, eofToken]

theorem Good.popLeaf (s : BState) : Good s (popLeaf s) := by
  rcases h : s.toks with _ | ⟨t, r⟩
  · refine ⟨popLeaf_panicked s, popLeaf_eofPos s, 0, [.complete (.leaf (peekT s))], ?_, ?_, ?_, ?_⟩
    · simp [popLeaf_toks, h]
    · exact popLeaf_wip s
    · intro e he; simp at he; exact ⟨_, he⟩
    · rw [h]
      simp [entriesText, Entry.text, treeText, peekT_text_eof h, toksText]
  · refine ⟨popLeaf_panicked s, popLeaf_eofPos s, 1, [.complete (.leaf (peekT s))], ?_, ?_, ?_, ?_⟩
    · rw [popLeaf_toks]
    · exact popLeaf_wip s
    · intro e he; simp at he; exact ⟨_, he⟩
    · simp [entriesText, Entry.text, treeText, toksText, peekT, h]

theorem Good.errorB (msg : String) (sp : Span) (s : BState) :
    Good s (errorB msg sp s) :=
  ⟨rfl, rfl, 0, [], by simp [errorB], by simp [errorB], by simp [EntriesOK],
   by simp [entriesText, toksText]⟩

/-- `close` run on a stack whose top fragment is completed entries over the
matching `in_progress` entry: it succeeds, wrapping the fragment into one
completed node whose leaf text is the fragment's. -/
theorem closeGo_spec (k : SyntaxKind) (s2 : BState) (st : Nat) (w : List Entry) :
    ∀ (es : List Entry), EntriesOK es → ∀ (acc : List UntypedTree),
    ∃ children,
      closeGo k s2 (es ++ .inProgress k st :: w) acc =
        { s2 with wip := .complete (.inner k ⟨st, s2.pos⟩ children) :: w } ∧
      treesText children = entriesText es ++ treesText acc := by
  intro es
  induction es with
  | nil =>
    intro _ acc
    exact ⟨acc, by simp [closeGo], by simp [entriesText]⟩
  | cons e es ih =>
    intro hok acc
    obtain ⟨t, rfl⟩ := hok e (by simp)
    have hok' : EntriesOK es := fun e' he' => hok e' (by simp [he'])
    obtain ⟨children, hgo, htx⟩ := ih hok' (t :: acc)
    refine ⟨children, by simpa [closeGo] using hgo, ?_⟩
    rw [htx, entriesText_cons]
    simp [Entry.text, treesText, List.append_assoc]

/-- Closing after an `open`, when everything in between kept the invariant:
the `close` finds its matching `open`, never panics, and the new node's text
is exactly the text consumed in between. -/
theorem closeNode_good {k : SyntaxKind} {s s2 : BState}
    (h : Good (openNode k s) s2) :
    Good s (closeNode k s2) ∧
    ∃ t, (closeNode k s2).wip = .complete t :: s.wip := by
  obtain ⟨hp, he, kk, es, ht, hw, hok, htx⟩ := h
  simp only [openNode] at hp he ht hw
  obtain ⟨children, hgo, hchtx⟩ := closeGo_spec k s2 s.pos s.wip es hok []
  rw [closeNode, hw]
  rw [hgo]
  constructor
  · refine ⟨hp, he, kk, [.complete (.inner k ⟨s.pos, s2.pos⟩ children)], ht, by simp, ?_, ?_⟩
    · intro e he'; simp at he'; exact ⟨_, he'⟩
    · rw [entriesText_cons, entriesText_nil]
      simp only [Entry.text, treeText]
      rw [hchtx]
      simpa [treesText] using htx
  · exact ⟨_, rfl⟩

theorem missingB_eq (s : BState) :
    missingB s =
      { s with wip := .complete (.inner .missing ⟨s.pos, s.pos⟩ []) :: s.wip } := by
  simp [missingB, closeNode, openNode, closeGo]

theorem Good.missingB (s : BState) : Good s (missingB s) := by
  rw [missingB_eq]
  exact ⟨rfl, rfl, 0, [.complete (.inner .missing ⟨s.pos, s.pos⟩ [])],
    by simp, by simp, fun e he => by simp at he; exact ⟨_, he⟩,
    by simp [entriesText, Entry.text, treeText, treesText, toksText]⟩

theorem closeGo_toks (k : SyntaxKind) (s : BState) :
    ∀ (w : List Entry) (acc : List UntypedTree), (closeGo k s w acc).toks = s.toks := by
  intro w
  induction w with
  | nil => intro acc; simp [closeGo]
  | cons e rest ih =>
    intro acc
    cases e with
    | inProgress k' st =>
      simp only [closeGo]
      split <;> simp
    | complete c => simpa [closeGo] using ih (c :: acc)

theorem closeNode_toks (k : SyntaxKind) (s : BState) :
    (closeNode k s).toks = s.toks := closeGo_toks k s s.wip []

@[simp] theorem missingB_toks (s : BState) : (missingB s).toks = s.toks := by
  rw [missingB_eq]

@[simp] theorem missingB_eofPos (s : BState) : (missingB s).eofPos = s.eofPos := by
  rw [missingB_eq]

@[simp] theorem missingB_panicked (s : BState) :
    (missingB s).panicked = s.panicked := by
  rw [missingB_eq]

@[simp] theorem missingB_pos (s : BState) : (missingB s).pos = s.pos := by
  rw [missingB_eq]

@[simp] theorem peekT_missingB (s : BState) : peekT (missingB s) = peekT s := by
  simp [peekT]

@[simp] theorem peekKind_missingB (s : BState) :
    peekKind (missingB s) = peekKind s := by
  simp [peekKind]

theorem Good.eofFree {s s' : BState} (h : Good s s')
    (he : ∀ t ∈ s.toks, t.kind ≠ .eof) : ∀ t ∈ s'.toks, t.kind ≠ .eof := by
  obtain ⟨-, -, k, es, ht, -⟩ := h
  intro t hmem
  rw [ht] at hmem
  exact he t (List.mem_of_mem_drop hmem)

theorem toks_nil_of_peek_eof {s : BState} (hk : peekKind s = .eof)
    (he : ∀ t ∈ s.toks, t.kind ≠ .eof) : s.toks = [] := by
  rcases h : s.toks with _ | ⟨t, r⟩
  · rfl
  · exfalso
    apply he t (by simp [h])
    rw [← hk]
    simp [peekKind, peekT, h]

theorem toks_ne_nil_of_peek {s : BState} {k : TokenKind} (h : peekKind s = k)
    (hk : k ≠ .eof) : s.toks ≠ [] := by
  intro hnil
  apply hk
  rw [← h]
  simp [peekKind, peekT, hnil, eofToken]

theorem popLeaf_length_lt {s : BState} (h : s.toks ≠ []) :
    (popLeaf s).toks.length < s.toks.length := by
  rw [popLeaf_toks, List.length_drop]
  have : 0 < s.toks.length := List.length_pos.mpr h
  omega

theorem skipTriviaF_nontrivial {s : BState}
    (h : (peekKind s).isTrivial = false) (n : Nat) : skipTriviaF n s = s := by
  cases n with
  | zero => rfl
  | succ n =>
    rcases hk : peekKind s <;>
      simp_all [skipTriviaF, TokenKind.isTrivial]

theorem skipTrivia_spec (n : Nat) : ∀ s : BState, s.toks.length ≤ n →
    Good s (skipTriviaF n s) ∧
    (peekKind (skipTriviaF n s)).isTrivial = false ∧
    ((peekKind s).isTrivial = true →
      (skipTriviaF n s).toks.length < s.toks.length) := by
  induction n with
  | zero =>
    intro s hlen
    have hnil : s.toks = [] := List.eq_nil_of_length_eq_zero (Nat.le_zero.mp hlen)
    have hpk : peekKind s = .eof := by simp [peekKind, peekT, hnil, eofToken]
    exact ⟨Good.refl s, by simp [skipTriviaF, hpk, TokenKind.isTrivial],
      by simp [hpk, TokenKind.isTrivial]⟩
  | succ n ih =>
    intro s hlen
    rcases hk : peekKind s with _ | _ | _ | _ | _ | _ | _ | _ | _ | _ | _ | _ | _ | _ | _ | _
    case whitespace | comment =>
      have hne : s.toks ≠ [] := toks_ne_nil_of_peek hk (by simp)
      have hlt := popLeaf_length_lt (s := s) hne
      have hlen' : (popLeaf s).toks.length ≤ n := by omega
      obtain ⟨hg, hnt, _⟩ := ih (popLeaf s) hlen'
      refine ⟨?_, ?_, ?_⟩
      · exact (Good.popLeaf s).trans (by simpa [skipTriviaF, hk] using hg)
      · simpa [skipTriviaF, hk] using hnt
      · intro _
        have hle := Good.toks_le hg
        simp only [skipTriviaF, hk]
        omega
    case unknown =>
      have hne : s.toks ≠ [] := toks_ne_nil_of_peek hk (by simp)
      have hlt : (popLeaf (errorB "unknown token" (peekT s).span s)).toks.length <
          s.toks.length := by
        rw [popLeaf_toks, errorB_toks, List.length_drop]
        have : 0 < s.toks.length := List.length_pos.mpr hne
        omega
      have hlen' : (popLeaf (errorB "unknown token" (peekT s).span s)).toks.length ≤ n := by
        omega
      obtain ⟨hg, hnt, _⟩ := ih _ hlen'
      refine ⟨?_, ?_, ?_⟩
      · exact ((Good.errorB _ _ s).trans (Good.popLeaf _)).trans
          (by simpa [skipTriviaF, hk] using hg)
      · simpa [skipTriviaF, hk] using hnt
      · intro _
        have hle := Good.toks_le hg
        simp only [skipTriviaF, hk]
        omega
    all_goals
      refine ⟨by simp [skipTriviaF, hk, Good.refl], ?_, ?_⟩ <;>
        simp [skipTriviaF, hk, TokenKind.isTrivial]

theorem skipToDeclGo_spec (n : Nat) : ∀ s : BState, s.toks.length ≤ n →
    Good s (skipToDeclGo n s).2 ∧
    (peekKind (skipToDeclGo n s).2 = .semi ∨ peekKind (skipToDeclGo n s).2 = .eof) ∧
    (¬ (peekKind s = .semi ∨ peekKind s = .eof) →
      (skipToDeclGo n s).2.toks.length < s.toks.length) := by
  induction n with
  | zero =>
    intro s hlen
    have hnil : s.toks = [] := List.eq_nil_of_length_eq_zero (Nat.le_zero.mp hlen)
    have hpk : peekKind s = .eof := by simp [peekKind, peekT, hnil, eofToken]
    exact ⟨Good.refl s, by simp [skipToDeclGo, hpk], fun h => absurd (Or.inr hpk) h⟩
  | succ n ih =>
    intro s hlen
    rcases hk : peekKind s with _ | _ | _ | _ | _ | _ | _ | _ | _ | _ | _ | _ | _ | _ | _ | _
    case semi | eof =>
      exact ⟨by simp [skipToDeclGo, hk, Good.refl],
        by simp [skipToDeclGo, hk],
        fun h => by simp [hk] at h⟩
    all_goals
      have hne : s.toks ≠ [] := toks_ne_nil_of_peek hk (by simp)
      have hlt := popLeaf_length_lt (s := s) hne
      have hlen' : (popLeaf s).toks.length ≤ n := by omega
      obtain ⟨hg, hstop, _⟩ := ih (popLeaf s) hlen'
      refine ⟨(Good.popLeaf s).trans (by simpa [skipToDeclGo, hk] using hg),
        by simpa [skipToDeclGo, hk] using hstop, ?_⟩
      intro _
      have hle := Good.toks_le hg
      simp only [skipToDeclGo, hk]
      omega

theorem skipToDeclSep_spec (n : Nat) (s : BState) (hlen : s.toks.length ≤ n) :
    Good s (skipToDeclSep n s).2 ∧
    (peekKind (skipToDeclSep n s).2 = .semi ∨ peekKind (skipToDeclSep n s).2 = .eof) ∧
    (¬ (peekKind s = .semi ∨ peekKind s = .eof) →
      (skipToDeclSep n s).2.toks.length < s.toks.length) := by
  have := skipToDeclGo_spec n s hlen
  simpa [skipToDeclSep] using this

/-! ### The termination measure

Each parsing function's measure is `100 * [remaining tokens] + rank`, where
the rank may depend on the kind of the token at the head of the stream (the
rank pattern makes every recursive call in `runP` strictly smaller, which
`runP_spec` exploits: each call spends one unit of fuel and the callee's
measure is at most the remaining fuel). -/

def rank : PFun → TokenKind → Nat
  | .moduleLoop, _ => 90
  | .modAfter, _ => 85
  | .defP, _ => 80
  | .defCont1, _ => 78
  | .defCont2, _ => 76
  | .imp, _ => 80
  | .impCont1, _ => 78
  | .impCont2, _ => 76
  | .impAliases, _ => 75
  | .iaLoop, _ => 70
  | .iaPart2, h => match h with | .comma => 68 | _ => 72
  | .tms, _ => 40
  | .tmsLoop, _ => 35
  | .tm, _ => 30
  | .singleAbs, _ => 15
  | .multiAbs, h => match h with | .lparen | .comma => 22 | _ => 70
  | .absFromArrow, h => match h with | .arrow => 25 | _ => 60
  | .afterNames, h => match h with | .arrow => 20 | _ => 50
  | .absNames, h => match h with | .lparen | .comma => 10 | _ => 65
  | .anLoop _, _ => 8
  | .anPart2 _, h => match h with | .comma => 6 | _ => 10
  | .parend, _ => 15

def measureP (f : PFun) (s : BState) : Nat :=
  100 * s.toks.length + rank f (peekKind s)

/-- The contract each function's callers guarantee: exactly the conditions
under which its `unreachable!()` arms cannot fire and its recursive calls
stay within the measure. -/
def Pre : PFun → BState → Prop
  | .defP, s => peekKind s = .alias ∨ peekKind s = .name ∨ peekKind s = .equals
  | .imp, s =>
    peekKind s = .name ∨ peekKind s = .alias ∨ peekKind s = .lbrace ∨
    peekKind s = .rbrace ∨ peekKind s = .comma ∨ peekKind s = .string ∨
    peekKind s = .untermString
  | .absNames, s => peekKind s = .lparen ∨ peekKind s = .comma
  | .multiAbs, s => peekKind s = .lparen ∨ peekKind s = .comma
  | .singleAbs, s => peekKind s = .name
  | .parend, s => peekKind s = .lparen
  | .absFromArrow, s => peekKind s = .arrow
  | _, _ => True

/-- Conditions under which a function is guaranteed to consume at least one
token (needed by the loops that re-enter it). -/
def SPre : PFun → BState → Prop
  | .tm, s =>
    peekKind s = .name ∨ peekKind s = .alias ∨ peekKind s = .lparen ∨
    peekKind s = .comma ∨ peekKind s = .arrow
  | .singleAbs, s => peekKind s = .name
  | .multiAbs, s => peekKind s = .lparen ∨ peekKind s = .comma
  | .absNames, s => peekKind s = .lparen ∨ peekKind s = .comma
  | .absFromArrow, s => peekKind s = .arrow
  | .afterNames, s => peekKind s = .arrow
  | .parend, s => peekKind s = .lparen
  | .anLoop _, s => peekKind s = .comma
  | .anPart2 _, s => peekKind s = .comma
  | _, _ => False

/-- Extra postcondition: the module loop consumes the entire token stream
(there are no `Eof`-kind tokens in a lexed stream, so the only way it stops
is with an empty stream). -/
def ExtraP : PFun → BState → BState → Prop
  | .moduleLoop, s, s' => (∀ t ∈ s.toks, t.kind ≠ .eof) → s'.toks = []
  | .modAfter, s, s' => (∀ t ∈ s.toks, t.kind ≠ .eof) → s'.toks = []
  | _, _, _ => True


theorem rank_pos (f : PFun) (h : TokenKind) : 1 ≤ rank f h := by
  cases f <;> cases h <;> simp [rank]

theorem rank_le (f : PFun) (h : TokenKind) : rank f h ≤ 90 := by
  cases f <;> cases h <;> simp [rank]

theorem measureP_le_of (f : PFun) (s : BState) :
    measureP f s ≤ 100 * s.toks.length + 90 := by
  have := rank_le f (peekKind s)
  simp only [measureP]
  omega

theorem spre_comma_absurd {s : BState} {n : Nat} {K : TokenKind}
    (hk : peekKind (skipTriviaF n s) = K) (hne : K ≠ .comma)
    (hsp : peekKind s = .comma) : False := by
  rw [skipTriviaF_nontrivial (by simp [hsp, TokenKind.isTrivial]) n, hsp] at hk
  exact hne hk.symm

theorem runP_spec : ∀ (n : Nat) (f : PFun) (s : BState), measureP f s ≤ n → Pre f s →
    Good s (runP n f s) ∧
    (SPre f s → (runP n f s).toks.length < s.toks.length) ∧
    ExtraP f s (runP n f s) := by
  intro n
  induction n with
  | zero =>
    intro f s hm _
    exfalso
    have h1 := rank_pos f (peekKind s)
    simp [measureP] at hm
    omega
  | succ n ih =>
    intro f s hm hpre
    cases f with
    | moduleLoop =>
      simp only [runP]
      have hm' : 100 * s.toks.length + 90 ≤ n + 1 := by
        simpa [measureP, rank] using hm
      have hlen : s.toks.length ≤ n := by omega
      obtain ⟨hg1, -, -⟩ := skipTrivia_spec n s hlen
      have hle1 := Good.toks_le hg1
      have step : ∀ X : BState, Good (skipTriviaF n s) X →
          Good s (runP n .modAfter X) ∧
          ((∀ t ∈ s.toks, t.kind ≠ .eof) → (runP n .modAfter X).toks = []) := by
        intro X hgX
        have hleX := Good.toks_le hgX
        have hmma : measureP .modAfter X ≤ n := by
          simp only [measureP, rank]; omega
        obtain ⟨hgA, -, hextA⟩ := ih .modAfter X hmma trivial
        exact ⟨(hg1.trans hgX).trans hgA,
          fun hEof => hextA ((hg1.trans hgX).eofFree hEof)⟩
      rcases hk1 : peekKind (skipTriviaF n s) with _|_|_|_|_|_|_|_|_|_|_|_|_|_|_|_
      case eof =>
        simp only [hk1]
        refine ⟨hg1, fun hsp => by simp [SPre] at hsp, ?_⟩
        intro hEof
        exact toks_nil_of_peek_eof hk1 (hg1.eofFree hEof)
      case name =>
        simp only [hk1]
        by_cases himp : (peekT (skipTriviaF n s)).text = "import".toList
        · simp only [if_pos himp]
          have hmi : measureP .imp (skipTriviaF n s) ≤ n := by
            simp only [measureP, rank]; omega
          obtain ⟨hgi, -, -⟩ := ih .imp _ hmi (by simp [Pre, hk1])
          obtain ⟨hgs, hes⟩ := step _ hgi
          exact ⟨hgs, fun hsp => by simp [SPre] at hsp, hes⟩
        · simp only [if_neg himp]
          rcases hsd : startsDef (skipTriviaF n s) with _ | _
          · simp only [hsd, Bool.false_eq_true, if_false]
            obtain ⟨hg2, -, -⟩ := skipToDeclSep_spec n (skipTriviaF n s) (by omega)
            rcases hsdp : skipToDeclSep n (skipTriviaF n s) with ⟨sp, s2⟩
            rw [hsdp] at hg2
            simp only [hsdp]
            obtain ⟨hgs, hes⟩ := step _ (hg2.trans (Good.errorB _ _ _))
            exact ⟨hgs, fun hsp => by simp [SPre] at hsp, hes⟩
          · simp only [hsd, if_true]
            have hmd : measureP .defP (skipTriviaF n s) ≤ n := by
              simp only [measureP, rank]; omega
            obtain ⟨hgd, -, -⟩ := ih .defP _ hmd (by simp [Pre, hk1])
            obtain ⟨hgs, hes⟩ := step _ hgd
            exact ⟨hgs, fun hsp => by simp [SPre] at hsp, hes⟩
      case lbrace | rbrace | string | untermString =>
        simp only [hk1]
        have hmi : measureP .imp (skipTriviaF n s) ≤ n := by
          simp only [measureP, rank]; omega
        obtain ⟨hgi, -, -⟩ := ih .imp _ hmi (by simp [Pre, hk1])
        obtain ⟨hgs, hes⟩ := step _ hgi
        exact ⟨hgs, fun hsp => by simp [SPre] at hsp, hes⟩
      case «alias» =>
        simp only [hk1]
        rcases hsd : startsDef (skipTriviaF n s) with _ | _
        · simp only [hsd, Bool.false_eq_true, if_false]
          obtain ⟨hg2, -, -⟩ := skipToDeclSep_spec n (skipTriviaF n s) (by omega)
          rcases hsdp : skipToDeclSep n (skipTriviaF n s) with ⟨sp, s2⟩
          rw [hsdp] at hg2
          simp only [hsdp]
          obtain ⟨hgs, hes⟩ := step _ (hg2.trans (Good.errorB _ _ _))
          exact ⟨hgs, fun hsp => by simp [SPre] at hsp, hes⟩
        · simp only [hsd, if_true]
          have hmd : measureP .defP (skipTriviaF n s) ≤ n := by
            simp only [measureP, rank]; omega
          obtain ⟨hgd, -, -⟩ := ih .defP _ hmd (by simp [Pre, hk1])
          obtain ⟨hgs, hes⟩ := step _ hgd
          exact ⟨hgs, fun hsp => by simp [SPre] at hsp, hes⟩
      case equals =>
        simp only [hk1]
        have hmd : measureP .defP (skipTriviaF n s) ≤ n := by
          simp only [measureP, rank]; omega
        obtain ⟨hgd, -, -⟩ := ih .defP _ hmd (by simp [Pre, hk1])
        obtain ⟨hgs, hes⟩ := step _ hgd
        exact ⟨hgs, fun hsp => by simp [SPre] at hsp, hes⟩
      case semi =>
        simp only [hk1]
        obtain ⟨hgs, hes⟩ := step _ (Good.errorB _ _ _)
        exact ⟨hgs, fun hsp => by simp [SPre] at hsp, hes⟩
      all_goals
        simp only [hk1]
        obtain ⟨hg2, -, -⟩ := skipToDeclSep_spec n (skipTriviaF n s) (by omega)
        rcases hsdp : skipToDeclSep n (skipTriviaF n s) with ⟨sp, s2⟩
        rw [hsdp] at hg2
        simp only [hsdp]
        obtain ⟨hgs, hes⟩ := step _ (hg2.trans (Good.errorB _ _ _))
        exact ⟨hgs, fun hsp => by simp [SPre] at hsp, hes⟩
    | modAfter =>
      simp only [runP]
      have hm' : 100 * s.toks.length + 85 ≤ n + 1 := by
        simpa [measureP, rank] using hm
      have hlen : s.toks.length ≤ n := by omega
      obtain ⟨hg3, -, -⟩ := skipTrivia_spec n s hlen
      have hle3 := Good.toks_le hg3
      rcases hk3 : peekKind (skipTriviaF n s) with _|_|_|_|_|_|_|_|_|_|_|_|_|_|_|_
      case semi =>
        simp only [hk3]
        have hne := toks_ne_nil_of_peek hk3 (by simp)
        have hpos := List.length_pos.mpr hne
        have hml : measureP .moduleLoop (popLeaf (skipTriviaF n s)) ≤ n := by
          refine le_trans (measureP_le_of _ _) ?_
          rw [popLeaf_toks, List.length_drop]
          omega
        obtain ⟨hgl, -, hext⟩ := ih .moduleLoop _ hml trivial
        refine ⟨(hg3.trans (Good.popLeaf _)).trans hgl,
          fun hsp => by simp [SPre] at hsp, ?_⟩
        intro hEof
        exact hext ((hg3.trans (Good.popLeaf _)).eofFree hEof)
      case eof =>
        simp only [hk3]
        refine ⟨hg3.trans (Good.errorB _ _ _), fun hsp => by simp [SPre] at hsp, ?_⟩
        intro hEof
        have h3e := hg3.eofFree hEof
        have hnil : (skipTriviaF n s).toks = [] := toks_nil_of_peek_eof hk3 h3e
        simpa using hnil
      all_goals
        simp only [hk3]
        obtain ⟨hg4, -, hstrict4⟩ := skipToDeclSep_spec n (skipTriviaF n s) (by omega)
        have hlt4 := hstrict4 (by simp [hk3])
        rcases hsd : skipToDeclSep n (skipTriviaF n s) with ⟨sp, s4⟩
        rw [hsd] at hg4 hlt4
        simp only [hsd]
        have hg4' : Good (skipTriviaF n s) s4 := hg4
        have hlt4' : s4.toks.length < (skipTriviaF n s).toks.length := hlt4
        have hle4 := Good.toks_le hg4' 
        have hml : measureP .moduleLoop (popLeaf (errorB "extraneous input" sp s4)) ≤ n := by
          refine le_trans (measureP_le_of _ _) ?_
          rw [popLeaf_toks, errorB_toks, List.length_drop]
          omega
        obtain ⟨hgl, -, hext⟩ := ih .moduleLoop _ hml trivial
        refine ⟨((hg3.trans hg4).trans ((Good.errorB _ _ _).trans (Good.popLeaf _))).trans hgl,
          fun hsp => by simp [SPre] at hsp, ?_⟩
        intro hEof
        exact hext (((hg3.trans hg4).trans
          ((Good.errorB _ _ _).trans (Good.popLeaf _))).eofFree hEof)
    | defP =>
      simp only [runP]
      have hm' : 100 * s.toks.length + 80 ≤ n + 1 := by
        simpa [measureP, rank] using hm
      simp only [peekKind_openNode]
      rcases hk : peekKind s with _|_|_|_|_|_|_|_|_|_|_|_|_|_|_|_
      case «alias» =>
        simp only [hk]
        have hne : s.toks ≠ [] := toks_ne_nil_of_peek hk (by simp)
        have hpos := List.length_pos.mpr hne
        obtain ⟨hgE, -⟩ := closeNode_good (Good.popLeaf (openNode .name (openNode .def_ s)))
        have htE : (closeNode .name (popLeaf (openNode .name (openNode .def_ s)))).toks
            = s.toks.drop 1 := by
          rw [closeNode_toks, popLeaf_toks, openNode_toks, openNode_toks]
        have hmc : measureP .defCont1
            (closeNode .name (popLeaf (openNode .name (openNode .def_ s)))) ≤ n := by
          refine le_trans (measureP_le_of _ _) ?_
          rw [htE, List.length_drop]
          omega
        obtain ⟨hgc1, -, -⟩ := ih .defCont1 _ hmc trivial
        obtain ⟨hgc, -⟩ := closeNode_good (hgE.trans hgc1)
        exact ⟨hgc, fun hsp => by simp [SPre] at hsp, trivial⟩
      case name =>
        simp only [hk]
        have hne : s.toks ≠ [] := toks_ne_nil_of_peek hk (by simp)
        have hpos := List.length_pos.mpr hne
        obtain ⟨hgE, -⟩ := closeNode_good (Good.popLeaf (openNode .badName
          (errorB "expected an alias, not a var" (peekT (openNode .def_ s)).span
            (openNode .def_ s))))
        have hgE' := (Good.errorB "expected an alias, not a var"
          (peekT (openNode .def_ s)).span (openNode .def_ s)).trans hgE
        have htE : (closeNode .badName (popLeaf (openNode .badName
            (errorB "expected an alias, not a var" (peekT (openNode .def_ s)).span
              (openNode .def_ s))))).toks = s.toks.drop 1 := by
          rw [closeNode_toks, popLeaf_toks, openNode_toks, errorB_toks, openNode_toks]
        have hmc : measureP .defCont1
            (closeNode .badName (popLeaf (openNode .badName
              (errorB "expected an alias, not a var" (peekT (openNode .def_ s)).span
                (openNode .def_ s))))) ≤ n := by
          refine le_trans (measureP_le_of _ _) ?_
          rw [htE, List.length_drop]
          omega
        obtain ⟨hgc1, -, -⟩ := ih .defCont1 _ hmc trivial
        obtain ⟨hgc, -⟩ := closeNode_good (hgE'.trans hgc1)
        exact ⟨hgc, fun hsp => by simp [SPre] at hsp, trivial⟩
      case equals =>
        simp only [hk]
        have hmc : measureP .defCont1
            (missingB (errorB "expected an alias name before this"
              (peekT (openNode .def_ s)).span (openNode .def_ s))) ≤ n := by
          simp only [measureP, rank, missingB_toks, errorB_toks, openNode_toks]
          omega
        obtain ⟨hgc1, -, -⟩ := ih .defCont1 _ hmc trivial
        obtain ⟨hgc, -⟩ := closeNode_good
          (((Good.errorB _ _ (openNode .def_ s)).trans (Good.missingB _)).trans hgc1)
        exact ⟨hgc, fun hsp => by simp [SPre] at hsp, trivial⟩
      all_goals simp [Pre, hk] at hpre
    | defCont1 =>
      simp only [runP]
      have hm' : 100 * s.toks.length + 78 ≤ n + 1 := by
        simpa [measureP, rank] using hm
      have hlen : s.toks.length ≤ n := by omega
      obtain ⟨hg3, -, -⟩ := skipTrivia_spec n s hlen
      have hle3 := Good.toks_le hg3
      rcases hk3 : peekKind (skipTriviaF n s) with _|_|_|_|_|_|_|_|_|_|_|_|_|_|_|_
      case equals =>
        simp only [hk3]
        have hne := toks_ne_nil_of_peek hk3 (by simp)
        have hpos := List.length_pos.mpr hne
        have hm2 : measureP .defCont2 (popLeaf (skipTriviaF n s)) ≤ n := by
          refine le_trans (measureP_le_of _ _) ?_
          rw [popLeaf_toks, List.length_drop]
          omega
        obtain ⟨hgD, -, -⟩ := ih .defCont2 _ hm2 trivial
        exact ⟨(hg3.trans (Good.popLeaf _)).trans hgD,
          fun hsp => by simp [SPre] at hsp, trivial⟩
      case name | «alias» | lparen | comma | arrow =>
        simp only [hk3]
        have hm2 : measureP .defCont2
            (errorB "expected an '=' before this"
              (peekT (skipTriviaF n s)).span (skipTriviaF n s)) ≤ n := by
          simp only [measureP, rank, errorB_toks]
          omega
        obtain ⟨hgD, -, -⟩ := ih .defCont2 _ hm2 trivial
        exact ⟨(hg3.trans (Good.errorB _ _ _)).trans hgD,
          fun hsp => by simp [SPre] at hsp, trivial⟩
      all_goals
        simp only [hk3]
        exact ⟨hg3.trans ((Good.errorB _ _ _).trans (Good.missingB _)),
          fun hsp => by simp [SPre] at hsp, trivial⟩
    | defCont2 =>
      simp only [runP]
      have hm' : 100 * s.toks.length + 76 ≤ n + 1 := by
        simpa [measureP, rank] using hm
      have hlen : s.toks.length ≤ n := by omega
      obtain ⟨hg1, -, -⟩ := skipTrivia_spec n s hlen
      have hle1 := Good.toks_le hg1
      have hmt : measureP .tms (skipTriviaF n s) ≤ n := by
        simp only [measureP, rank]; omega
      obtain ⟨hg2, -, -⟩ := ih .tms _ hmt trivial
      exact ⟨hg1.trans hg2, fun hsp => by simp [SPre] at hsp, trivial⟩
    | imp =>
      simp only [runP]
      have hm' : 100 * s.toks.length + 80 ≤ n + 1 := by
        simpa [measureP, rank] using hm
      simp only [peekKind_openNode]
      rcases hk : peekKind s with _|_|_|_|_|_|_|_|_|_|_|_|_|_|_|_
      case name =>
        simp only [hk]
        by_cases htxt : (peekT (openNode .imp s)).text = "import".toList
        · simp only [if_pos htxt]
          have hne : s.toks ≠ [] := toks_ne_nil_of_peek hk (by simp)
          have hpos := List.length_pos.mpr hne
          have hmc : measureP .impCont1 (popLeaf (openNode .imp s)) ≤ n := by
            refine le_trans (measureP_le_of _ _) ?_
            rw [popLeaf_toks, openNode_toks, List.length_drop]
            omega
          obtain ⟨hgc1, -, -⟩ := ih .impCont1 _ hmc trivial
          obtain ⟨hgc, -⟩ := closeNode_good ((Good.popLeaf (openNode .imp s)).trans hgc1)
          exact ⟨hgc, fun hsp => by simp [SPre] at hsp, trivial⟩
        · simp only [if_neg htxt]
          have hmc : measureP .impCont1
              (errorB "expected 'import' before this" (peekT (openNode .imp s)).span
                (openNode .imp s)) ≤ n := by
            simp only [measureP, rank, errorB_toks, openNode_toks]
            omega
          obtain ⟨hgc1, -, -⟩ := ih .impCont1 _ hmc trivial
          obtain ⟨hgc, -⟩ := closeNode_good
            ((Good.errorB _ _ (openNode .imp s)).trans hgc1)
          exact ⟨hgc, fun hsp => by simp [SPre] at hsp, trivial⟩
      case lbrace | «alias» | comma | rbrace | string | untermString =>
        simp only [hk]
        have hmc : measureP .impCont1
            (errorB "expected 'import' before this" (peekT (openNode .imp s)).span
              (openNode .imp s)) ≤ n := by
          simp only [measureP, rank, errorB_toks, openNode_toks]
          omega
        obtain ⟨hgc1, -, -⟩ := ih .impCont1 _ hmc trivial
        obtain ⟨hgc, -⟩ := closeNode_good
          ((Good.errorB _ _ (openNode .imp s)).trans hgc1)
        exact ⟨hgc, fun hsp => by simp [SPre] at hsp, trivial⟩
      all_goals simp [Pre, hk] at hpre
    | impCont1 =>
      simp only [runP]
      have hm' : 100 * s.toks.length + 78 ≤ n + 1 := by
        simpa [measureP, rank] using hm
      have hlen : s.toks.length ≤ n := by omega
      obtain ⟨hgA, -, -⟩ := skipTrivia_spec n s hlen
      have hleA := Good.toks_le hgA
      have hmia : measureP .impAliases (skipTriviaF n s) ≤ n := by
        simp only [measureP, rank]; omega
      obtain ⟨hgB, -, -⟩ := ih .impAliases _ hmia trivial
      have hleB := Good.toks_le hgB
      have hlen4 : (runP n .impAliases (skipTriviaF n s)).toks.length ≤ n := by omega
      obtain ⟨hgC, -, -⟩ := skipTrivia_spec n _ hlen4
      have hleC := Good.toks_le hgC
      have hchain : Good s (skipTriviaF n (runP n .impAliases (skipTriviaF n s))) :=
        (hgA.trans hgB).trans hgC
      rcases hk5 : peekKind (skipTriviaF n (runP n .impAliases (skipTriviaF n s))) with
        _|_|_|_|_|_|_|_|_|_|_|_|_|_|_|_
      case name =>
        simp only [hk5]
        by_cases htxt : (peekT (skipTriviaF n
            (runP n .impAliases (skipTriviaF n s)))).text = "from".toList
        · simp only [if_pos htxt]
          have hne5 : (skipTriviaF n (runP n .impAliases (skipTriviaF n s))).toks ≠ [] :=
            toks_ne_nil_of_peek hk5 (by simp)
          have hpos5 := List.length_pos.mpr hne5
          have hm2 : measureP .impCont2 (popLeaf (skipTriviaF n
              (runP n .impAliases (skipTriviaF n s)))) ≤ n := by
            refine le_trans (measureP_le_of _ _) ?_
            rw [popLeaf_toks, List.length_drop]
            omega
          obtain ⟨hgD, -, -⟩ := ih .impCont2 _ hm2 trivial
          exact ⟨(hchain.trans (Good.popLeaf _)).trans hgD,
            fun hsp => by simp [SPre] at hsp, trivial⟩
        · simp only [if_neg htxt]
          exact ⟨hchain.trans ((Good.errorB _ _ _).trans (Good.missingB _)),
            fun hsp => by simp [SPre] at hsp, trivial⟩
      case string | untermString =>
        simp only [hk5]
        have hm2 : measureP .impCont2
            (errorB "expected 'from' before this"
              (peekT (skipTriviaF n (runP n .impAliases (skipTriviaF n s)))).span
              (skipTriviaF n (runP n .impAliases (skipTriviaF n s)))) ≤ n := by
          simp only [measureP, rank, errorB_toks]
          omega
        obtain ⟨hgD, -, -⟩ := ih .impCont2 _ hm2 trivial
        exact ⟨(hchain.trans (Good.errorB _ _ _)).trans hgD,
          fun hsp => by simp [SPre] at hsp, trivial⟩
      all_goals
        simp only [hk5]
        exact ⟨hchain.trans ((Good.errorB _ _ _).trans (Good.missingB _)),
          fun hsp => by simp [SPre] at hsp, trivial⟩
    | impCont2 =>
      simp only [runP]
      have hm' : 100 * s.toks.length + 76 ≤ n + 1 := by
        simpa [measureP, rank] using hm
      have hlen : s.toks.length ≤ n := by omega
      obtain ⟨hg7, -, -⟩ := skipTrivia_spec n s hlen
      rcases hk7 : peekKind (skipTriviaF n s) with _|_|_|_|_|_|_|_|_|_|_|_|_|_|_|_
      case string =>
        simp only [hk7]
        exact ⟨hg7.trans (closeNode_good
          (Good.popLeaf (openNode .impFilepath (skipTriviaF n s)))).1,
          fun hsp => by simp [SPre] at hsp, trivial⟩
      case untermString =>
        simp only [hk7]
        exact ⟨hg7.trans ((Good.errorB _ _ _).trans (closeNode_good
          (Good.popLeaf (openNode .impFilepath
            (errorB "unterminated filepath" (peekT (skipTriviaF n s)).span
              (skipTriviaF n s))))).1),
          fun hsp => by simp [SPre] at hsp, trivial⟩
      all_goals
        simp only [hk7]
        exact ⟨hg7.trans ((Good.errorB _ _ _).trans (Good.missingB _)),
          fun hsp => by simp [SPre] at hsp, trivial⟩
    | impAliases =>
      simp only [runP]
      have hm' : 100 * s.toks.length + 75 ≤ n + 1 := by
        simpa [measureP, rank] using hm
      rcases hk : peekKind s with _|_|_|_|_|_|_|_|_|_|_|_|_|_|_|_
      case lbrace =>
        simp only [hk]
        have hne : s.toks ≠ [] := toks_ne_nil_of_peek hk (by simp)
        have hpos := List.length_pos.mpr hne
        have hml : measureP .iaLoop (popLeaf (openNode .impAliases s)) ≤ n := by
          refine le_trans (measureP_le_of _ _) ?_
          rw [popLeaf_toks, openNode_toks, List.length_drop]
          omega
        obtain ⟨hgl, -, -⟩ := ih .iaLoop _ hml trivial
        obtain ⟨hgc, -⟩ := closeNode_good ((Good.popLeaf (openNode .impAliases s)).trans hgl)
        exact ⟨hgc, fun hsp => by simp [SPre] at hsp, trivial⟩
      case «alias» | name | comma | rbrace =>
        simp only [hk]
        have hml : measureP .iaLoop
            (errorB "expected a '\x7b' before this" (peekT s).span
              (openNode .impAliases s)) ≤ n := by
          simp only [measureP, rank, errorB_toks, openNode_toks]
          omega
        obtain ⟨hgl, -, -⟩ := ih .iaLoop _ hml trivial
        obtain ⟨hgc, -⟩ := closeNode_good
          ((Good.errorB _ _ (openNode .impAliases s)).trans hgl)
        exact ⟨hgc, fun hsp => by simp [SPre] at hsp, trivial⟩
      all_goals
        simp only [hk]
        exact ⟨(Good.errorB _ _ s).trans (Good.missingB _),
          fun hsp => by simp [SPre] at hsp, trivial⟩
    | iaLoop =>
      simp only [runP]
      have hm' : 100 * s.toks.length + 70 ≤ n + 1 := by
        simpa [measureP, rank] using hm
      have hlen : s.toks.length ≤ n := by omega
      obtain ⟨hg1, hnt1, -⟩ := skipTrivia_spec n s hlen
      have hle1 := Good.toks_le hg1
      rcases hk1 : peekKind (skipTriviaF n s) with _|_|_|_|_|_|_|_|_|_|_|_|_|_|_|_
      case «alias» =>
        simp only [hk1]
        have hne1 : (skipTriviaF n s).toks ≠ [] := toks_ne_nil_of_peek hk1 (by simp)
        have hpos1 := List.length_pos.mpr hne1
        obtain ⟨hgE, -⟩ := closeNode_good (Good.popLeaf (openNode .name (skipTriviaF n s)))
        have htE : (closeNode .name (popLeaf (openNode .name (skipTriviaF n s)))).toks
            = (skipTriviaF n s).toks.drop 1 := by
          rw [closeNode_toks, popLeaf_toks, openNode_toks]
        have hmp : measureP .iaPart2
            (closeNode .name (popLeaf (openNode .name (skipTriviaF n s)))) ≤ n := by
          refine le_trans (measureP_le_of _ _) ?_
          rw [htE, List.length_drop]
          omega
        obtain ⟨hgp, -, -⟩ := ih .iaPart2 _ hmp trivial
        exact ⟨(hg1.trans hgE).trans hgp, fun hsp => by simp [SPre] at hsp, trivial⟩
      case name =>
        simp only [hk1]
        have hne1 : (skipTriviaF n s).toks ≠ [] := toks_ne_nil_of_peek hk1 (by simp)
        have hpos1 := List.length_pos.mpr hne1
        obtain ⟨hgE, -⟩ := closeNode_good (Good.popLeaf (openNode .badName
          (errorB "expected an alias here, not a name"
            (peekT (skipTriviaF n s)).span (skipTriviaF n s))))
        have hgE' := (Good.errorB "expected an alias here, not a name"
          (peekT (skipTriviaF n s)).span (skipTriviaF n s)).trans hgE
        have htE : (closeNode .badName (popLeaf (openNode .badName
            (errorB "expected an alias here, not a name"
              (peekT (skipTriviaF n s)).span (skipTriviaF n s))))).toks
            = (skipTriviaF n s).toks.drop 1 := by
          rw [closeNode_toks, popLeaf_toks, openNode_toks, errorB_toks]
        have hmp : measureP .iaPart2
            (closeNode .badName (popLeaf (openNode .badName
              (errorB "expected an alias here, not a name"
                (peekT (skipTriviaF n s)).span (skipTriviaF n s))))) ≤ n := by
          refine le_trans (measureP_le_of _ _) ?_
          rw [htE, List.length_drop]
          omega
        obtain ⟨hgp, -, -⟩ := ih .iaPart2 _ hmp trivial
        exact ⟨(hg1.trans hgE').trans hgp, fun hsp => by simp [SPre] at hsp, trivial⟩
      case rbrace =>
        simp only [hk1]
        exact ⟨hg1.trans (Good.popLeaf _), fun hsp => by simp [SPre] at hsp, trivial⟩
      case comma =>
        simp only [hk1]
        have hmp : measureP .iaPart2
            (errorB "extraneous ','" (peekT (skipTriviaF n s)).span
              (skipTriviaF n s)) ≤ n := by
          simp only [measureP, rank, errorB_toks, peekKind_errorB, hk1]
          omega
        obtain ⟨hgp, -, -⟩ := ih .iaPart2 _ hmp trivial
        exact ⟨(hg1.trans (Good.errorB _ _ _)).trans hgp,
          fun hsp => by simp [SPre] at hsp, trivial⟩
      all_goals
        simp only [hk1]
        exact ⟨hg1.trans (Good.errorB _ _ _), fun hsp => by simp [SPre] at hsp, trivial⟩
    | iaPart2 =>
      simp only [runP]
      have hm68 : 100 * s.toks.length + 68 ≤ n + 1 := by
        have h68 : 68 ≤ rank .iaPart2 (peekKind s) := by
          rcases hks : peekKind s <;> simp [rank]
        simp only [measureP] at hm
        omega
      have hlen : s.toks.length ≤ n := by omega
      obtain ⟨hg3, hnt3, -⟩ := skipTrivia_spec n s hlen
      have hle3 := Good.toks_le hg3
      rcases hk3 : peekKind (skipTriviaF n s) with _|_|_|_|_|_|_|_|_|_|_|_|_|_|_|_
      case comma =>
        simp only [hk3]
        have hne := toks_ne_nil_of_peek hk3 (by simp)
        have hpos := List.length_pos.mpr hne
        have hml : measureP .iaLoop (popLeaf (skipTriviaF n s)) ≤ n := by
          refine le_trans (measureP_le_of _ _) ?_
          rw [popLeaf_toks, List.length_drop]
          omega
        obtain ⟨hgl, -, -⟩ := ih .iaLoop _ hml trivial
        exact ⟨(hg3.trans (Good.popLeaf _)).trans hgl,
          fun hsp => by simp [SPre] at hsp, trivial⟩
      case rbrace =>
        simp only [hk3]
        exact ⟨hg3.trans (Good.popLeaf _), fun hsp => by simp [SPre] at hsp, trivial⟩
      case «alias» | name =>
        simp only [hk3]
        have hkc : peekKind s ≠ .comma :=
          fun hc => spre_comma_absurd hk3 (by simp) hc
        have hrank : rank .iaPart2 (peekKind s) = 72 := by
          rcases hks : peekKind s
          case comma => exact absurd hks hkc
          all_goals simp [rank]
        have hm72 : 100 * s.toks.length + 72 ≤ n + 1 := by
          simp only [measureP, hrank] at hm
          omega
        have hml : measureP .iaLoop
            (errorB "expected a ',' before this"
              (peekT (skipTriviaF n s)).span (skipTriviaF n s)) ≤ n := by
          simp only [measureP, rank, errorB_toks]
          omega
        obtain ⟨hgl, -, -⟩ := ih .iaLoop _ hml trivial
        exact ⟨(hg3.trans (Good.errorB _ _ _)).trans hgl,
          fun hsp => by simp [SPre] at hsp, trivial⟩
      all_goals
        simp only [hk3]
        exact ⟨hg3.trans (Good.errorB _ _ _), fun hsp => by simp [SPre] at hsp, trivial⟩
    | tms =>
      simp only [runP]
      have hm' : 100 * s.toks.length + 40 ≤ n + 1 := by
        simpa [measureP, rank] using hm
      have hmtm : measureP .tm (openNode .tms s) ≤ n := by
        simp only [measureP, rank, openNode_toks, peekKind_openNode]
        omega
      obtain ⟨hg1, -, -⟩ := ih .tm (openNode .tms s) hmtm trivial
      have hle1 := Good.toks_le hg1
      simp only [openNode_toks] at hle1
      have hmloop : measureP .tmsLoop (runP n .tm (openNode .tms s)) ≤ n := by
        simp only [measureP, rank]
        omega
      obtain ⟨hg2, -, -⟩ := ih .tmsLoop _ hmloop trivial
      obtain ⟨hgc, t, hwip⟩ := closeNode_good (hg1.trans hg2)
      exact ⟨hgc, fun hsp => by simp [SPre] at hsp, trivial⟩
    | tmsLoop =>
      simp only [runP]
      have hm' : 100 * s.toks.length + 35 ≤ n + 1 := by
        simpa [measureP, rank] using hm
      have hlen : s.toks.length ≤ n := by omega
      obtain ⟨hg1, hnt1, -⟩ := skipTrivia_spec n s hlen
      have hle1 := Good.toks_le hg1
      rcases hk : peekKind (skipTriviaF n s) with _|_|_|_|_|_|_|_|_|_|_|_|_|_|_|_
      case name | «alias» | lparen | comma | arrow =>
        simp only [hk]
        have hmtm : measureP .tm (skipTriviaF n s) ≤ n := by
          simp only [measureP, rank]; omega
        obtain ⟨hgtm, hstm, -⟩ := ih .tm _ hmtm trivial
        have hlt := hstm (by simp [SPre, hk])
        have hmlp : measureP .tmsLoop (runP n .tm (skipTriviaF n s)) ≤ n := by
          simp only [measureP, rank]; omega
        obtain ⟨hglp, -, -⟩ := ih .tmsLoop _ hmlp trivial
        exact ⟨(hg1.trans hgtm).trans hglp, fun hsp => by simp [SPre] at hsp, trivial⟩
      all_goals
        simp only [hk]
        exact ⟨hg1, fun hsp => by simp [SPre] at hsp, trivial⟩
    | tm =>
      simp only [runP]
      have hm' : 100 * s.toks.length + 30 ≤ n + 1 := by
        simpa [measureP, rank] using hm
      rcases hk : peekKind s with _|_|_|_|_|_|_|_|_|_|_|_|_|_|_|_
      case name =>
        simp only [hk]
        rcases hssa : startsSingleAbs s with _ | _
        · simp only [hssa, Bool.false_eq_true, if_false]
          have hne : s.toks ≠ [] := toks_ne_nil_of_peek hk (by simp)
          obtain ⟨hgc, -⟩ := closeNode_good (Good.popLeaf (openNode .var s))
          refine ⟨hgc, fun _ => ?_, trivial⟩
          rw [closeNode_toks, popLeaf_toks, openNode_toks, List.length_drop]
          have := List.length_pos.mpr hne
          omega
        · simp only [hssa, if_true]
          have hmsa : measureP .singleAbs s ≤ n := by
            simp only [measureP, rank]; omega
          obtain ⟨hg, hstrict, -⟩ := ih .singleAbs s hmsa (by simp [Pre, hk])
          exact ⟨hg, fun _ => hstrict (by simp [SPre, hk]), trivial⟩
      case «alias» =>
        simp only [hk]
        have hne : s.toks ≠ [] := toks_ne_nil_of_peek hk (by simp)
        obtain ⟨hgc, -⟩ := closeNode_good (Good.popLeaf (openNode .aliasK s))
        refine ⟨hgc, fun _ => ?_, trivial⟩
        rw [closeNode_toks, popLeaf_toks, openNode_toks, List.length_drop]
        have := List.length_pos.mpr hne
        omega
      case lparen =>
        simp only [hk]
        rcases hsan : startsAbsNames s with _ | _
        · simp only [hsan, Bool.false_eq_true, if_false]
          have hmp : measureP .parend s ≤ n := by
            simp only [measureP, rank]; omega
          obtain ⟨hg, hstrict, -⟩ := ih .parend s hmp (by simp [Pre, hk])
          exact ⟨hg, fun _ => hstrict (by simp [SPre, hk]), trivial⟩
        · simp only [hsan, if_true]
          have hmm : measureP .multiAbs s ≤ n := by
            simp only [measureP, rank, hk]; omega
          obtain ⟨hg, hstrict, -⟩ := ih .multiAbs s hmm (by simp [Pre, hk])
          exact ⟨hg, fun _ => hstrict (by simp [SPre, hk]), trivial⟩
      case comma =>
        simp only [hk]
        have hmm : measureP .multiAbs s ≤ n := by
          simp only [measureP, rank, hk]; omega
        obtain ⟨hg, hstrict, -⟩ := ih .multiAbs s hmm (by simp [Pre, hk])
        exact ⟨hg, fun _ => hstrict (by simp [SPre, hk]), trivial⟩
      case arrow =>
        simp only [hk]
        have hma : measureP .absFromArrow s ≤ n := by
          simp only [measureP, rank, hk]; omega
        obtain ⟨hg, hstrict, -⟩ := ih .absFromArrow s hma (by simp [Pre, hk])
        exact ⟨hg, fun _ => hstrict (by simp [SPre, hk]), trivial⟩
      all_goals
        simp only [hk]
        exact ⟨Good.errorB _ _ s, fun hsp => by simp [SPre, hk] at hsp, trivial⟩
    | singleAbs =>
      simp only [runP]
      have hm' : 100 * s.toks.length + 15 ≤ n + 1 := by
        simpa [measureP, rank] using hm
      have hne : s.toks ≠ [] := toks_ne_nil_of_peek hpre (by simp)
      have hpos := List.length_pos.mpr hne
      obtain ⟨hg2, -⟩ := closeNode_good
        (Good.popLeaf (openNode .name (openNode .absVars (openNode .abs s))))
      obtain ⟨hg3, -⟩ := closeNode_good hg2
      have ht3 := Good.toks_le hg3
      simp only [openNode_toks] at ht3
      have hts : (closeNode .absVars (closeNode .name (popLeaf
          (openNode .name (openNode .absVars (openNode .abs s)))))).toks =
          s.toks.drop 1 := by
        rw [closeNode_toks, closeNode_toks, popLeaf_toks, openNode_toks,
          openNode_toks, openNode_toks]
      have hlen2 : (closeNode .absVars (closeNode .name (popLeaf
          (openNode .name (openNode .absVars (openNode .abs s)))))).toks.length ≤ n := by
        rw [hts, List.length_drop]; omega
      obtain ⟨hg4, -, -⟩ := skipTrivia_spec n _ hlen2
      have hle4 := Good.toks_le hg4
      rw [hts, List.length_drop] at hle4
      have hma : measureP .afterNames (skipTriviaF n
          (closeNode .absVars (closeNode .name (popLeaf
            (openNode .name (openNode .absVars (openNode .abs s))))))) ≤ n := by
        refine le_trans (measureP_le_of _ _) ?_
        omega
      obtain ⟨hg5, -, -⟩ := ih .afterNames _ hma trivial
      have hle5 := Good.toks_le hg5
      obtain ⟨hgc, -⟩ := closeNode_good ((hg3.trans hg4).trans hg5)
      refine ⟨hgc, fun _ => ?_, trivial⟩
      rw [closeNode_toks]
      omega
    | multiAbs =>
      simp only [runP]
      have hrk : rank .multiAbs (peekKind s) = 22 := by
        rcases hpre with hk | hk <;> simp [rank, hk]
      have hm' : 100 * s.toks.length + 22 ≤ n + 1 := by
        simp only [measureP, hrk] at hm; omega
      have hman : measureP .absNames (openNode .abs s) ≤ n := by
        have : rank .absNames (peekKind s) = 10 := by
          rcases hpre with hk | hk <;> simp [rank, hk]
        simp only [measureP, peekKind_openNode, openNode_toks, this]
        omega
      obtain ⟨hgan, hsan, -⟩ := ih .absNames (openNode .abs s) hman
        (by simpa [Pre] using hpre)
      have hlt1 := hsan (by simpa [SPre] using hpre)
      simp only [openNode_toks] at hlt1
      have hle1 := Good.toks_le hgan
      simp only [openNode_toks] at hle1
      have hlen2 : (runP n .absNames (openNode .abs s)).toks.length ≤ n := by
        omega
      obtain ⟨hg4, -, -⟩ := skipTrivia_spec n _ hlen2
      have hle4 := Good.toks_le hg4
      have hma : measureP .afterNames (skipTriviaF n
          (runP n .absNames (openNode .abs s))) ≤ n := by
        refine le_trans (measureP_le_of _ _) ?_
        omega
      obtain ⟨hg5, -, -⟩ := ih .afterNames _ hma trivial
      have hle5 := Good.toks_le hg5
      obtain ⟨hgc, -⟩ := closeNode_good ((hgan.trans hg4).trans hg5)
      refine ⟨hgc, fun _ => ?_, trivial⟩
      rw [closeNode_toks]
      omega
    | absFromArrow =>
      simp only [runP]
      have hpk : peekKind s = .arrow := hpre
      have hm' : 100 * s.toks.length + 25 ≤ n + 1 := by
        simpa [measureP, rank, hpk] using hm
      have hgae : Good (openNode .abs s)
          (errorB "expected abstraction var(s) enclosed in '(..)' before this"
            (peekT (missingB (openNode .abs s))).span (missingB (openNode .abs s))) :=
        (Good.missingB _).trans (Good.errorB _ _ _)
      have hpk2 : peekKind (errorB "expected abstraction var(s) enclosed in '(..)' before this"
          (peekT (missingB (openNode .abs s))).span (missingB (openNode .abs s))) = .arrow := by
        simpa using hpk
      have hst : skipTriviaF n (errorB "expected abstraction var(s) enclosed in '(..)' before this"
          (peekT (missingB (openNode .abs s))).span (missingB (openNode .abs s))) =
          errorB "expected abstraction var(s) enclosed in '(..)' before this"
            (peekT (missingB (openNode .abs s))).span (missingB (openNode .abs s)) :=
        skipTriviaF_nontrivial (by simp [hpk, TokenKind.isTrivial]) n
      rw [hst]
      have hma : measureP .afterNames (errorB "expected abstraction var(s) enclosed in '(..)' before this"
          (peekT (missingB (openNode .abs s))).span (missingB (openNode .abs s))) ≤ n := by
        simp only [measureP, rank, hpk2, errorB_toks, missingB_toks, openNode_toks]
        omega
      obtain ⟨hg5, hs5, -⟩ := ih .afterNames _ hma trivial
      have hlt5 := hs5 (by simp [SPre, hpk])
      simp only [errorB_toks, missingB_toks, openNode_toks] at hlt5
      obtain ⟨hgc, -⟩ := closeNode_good (hgae.trans hg5)
      refine ⟨hgc, fun _ => ?_, trivial⟩
      rw [closeNode_toks]
      omega
    | afterNames =>
      simp only [runP]
      rcases hk : peekKind s with _|_|_|_|_|_|_|_|_|_|_|_|_|_|_|_
      case arrow =>
        simp only [hk]
        have hm' : 100 * s.toks.length + 20 ≤ n + 1 := by
          simpa [measureP, rank, hk] using hm
        have hne : s.toks ≠ [] := toks_ne_nil_of_peek hk (by simp)
        have hpos := List.length_pos.mpr hne
        have hplt := popLeaf_length_lt (s := s) hne
        have hlen2 : (popLeaf s).toks.length ≤ n := by omega
        obtain ⟨hg2, -, -⟩ := skipTrivia_spec n (popLeaf s) hlen2
        have hle2 := Good.toks_le hg2
        have hmt : measureP .tms (skipTriviaF n (popLeaf s)) ≤ n := by
          simp only [measureP, rank]; omega
        obtain ⟨hg3, -, -⟩ := ih .tms _ hmt trivial
        have hle3 := Good.toks_le hg3
        refine ⟨((Good.popLeaf s).trans hg2).trans hg3, fun _ => by omega, trivial⟩
      case name | «alias» | lparen | comma =>
        simp only [hk]
        have hm' : 100 * s.toks.length + 50 ≤ n + 1 := by
          simpa [measureP, rank, hk] using hm
        have hlen : s.toks.length ≤ n := by omega
        obtain ⟨hg2, -, -⟩ :=
          skipTrivia_spec n (errorB "expected an '=>' before this" (peekT s).span s)
            (by simpa using hlen)
        have hle2 := Good.toks_le hg2
        simp only [errorB_toks] at hle2
        have hmt : measureP .tms (skipTriviaF n
            (errorB "expected an '=>' before this" (peekT s).span s)) ≤ n := by
          simp only [measureP, rank]; omega
        obtain ⟨hg3, -, -⟩ := ih .tms _ hmt trivial
        exact ⟨((Good.errorB _ _ s).trans hg2).trans hg3,
          fun hsp => by simp [SPre, hk] at hsp, trivial⟩
      all_goals
        simp only [hk]
        exact ⟨(Good.errorB _ _ s).trans (Good.missingB _),
          fun hsp => by simp [SPre, hk] at hsp, trivial⟩
    | absNames =>
      simp only [runP]
      rcases hpre with hk | hk
      · -- open paren
        simp only [peekKind_openNode, hk]
        have hm' : 100 * s.toks.length + 10 ≤ n + 1 := by
          simpa [measureP, rank, hk] using hm
        have hne : s.toks ≠ [] := toks_ne_nil_of_peek hk (by simp)
        have hpos := List.length_pos.mpr hne
        have hml : measureP (.anLoop false) (popLeaf (openNode .absVars s)) ≤ n := by
          have := rank_le (.anLoop false) (peekKind (popLeaf (openNode .absVars s)))
          simp only [measureP, rank, popLeaf_toks, openNode_toks, List.length_drop]
          omega
        obtain ⟨hgl, -, -⟩ := ih (.anLoop false) _ hml trivial
        have hlel := Good.toks_le hgl
        rw [popLeaf_toks, openNode_toks, List.length_drop] at hlel
        obtain ⟨hgc, -⟩ := closeNode_good ((Good.popLeaf (openNode .absVars s)).trans hgl)
        refine ⟨hgc, fun _ => ?_, trivial⟩
        rw [closeNode_toks]
        omega
      · -- comma
        simp only [peekKind_openNode, hk]
        have hm' : 100 * s.toks.length + 10 ≤ n + 1 := by
          simpa [measureP, rank, hk] using hm
        have hne : s.toks ≠ [] := toks_ne_nil_of_peek hk (by simp)
        have hpos := List.length_pos.mpr hne
        have hml : measureP (.anLoop false)
            (errorB "expected a '(' before this" (peekT (openNode .absVars s)).span
              (openNode .absVars s)) ≤ n := by
          simp only [measureP, rank, errorB_toks, openNode_toks, peekKind_errorB,
            peekKind_openNode, hk]
          omega
        obtain ⟨hgl, hsl, -⟩ := ih (.anLoop false) _ hml trivial
        have hltl := hsl (by simp [SPre, hk])
        simp only [errorB_toks, openNode_toks] at hltl
        obtain ⟨hgc, -⟩ := closeNode_good ((Good.errorB _ _ (openNode .absVars s)).trans hgl)
        refine ⟨hgc, fun _ => ?_, trivial⟩
        rw [closeNode_toks]
        omega
    | anLoop seen =>
      simp only [runP]
      have hm' : 100 * s.toks.length + 8 ≤ n + 1 := by
        simpa [measureP, rank] using hm
      have hlen : s.toks.length ≤ n := by omega
      obtain ⟨hg1, hnt1, -⟩ := skipTrivia_spec n s hlen
      have hle1 := Good.toks_le hg1
      rcases hk1 : peekKind (skipTriviaF n s) with _|_|_|_|_|_|_|_|_|_|_|_|_|_|_|_
      case name =>
        simp only [hk1]
        have hne1 : (skipTriviaF n s).toks ≠ [] := toks_ne_nil_of_peek hk1 (by simp)
        have hpos1 := List.length_pos.mpr hne1
        obtain ⟨hgE, -⟩ := closeNode_good (Good.popLeaf (openNode .name (skipTriviaF n s)))
        have htE : (closeNode .name (popLeaf (openNode .name (skipTriviaF n s)))).toks
            = (skipTriviaF n s).toks.drop 1 := by
          rw [closeNode_toks, popLeaf_toks, openNode_toks]
        have hmp : measureP (.anPart2 true)
            (closeNode .name (popLeaf (openNode .name (skipTriviaF n s)))) ≤ n := by
          refine le_trans (measureP_le_of _ _) ?_
          rw [htE, List.length_drop]
          omega
        obtain ⟨hgp, -, -⟩ := ih (.anPart2 true) _ hmp trivial
        exact ⟨(hg1.trans hgE).trans hgp,
          fun hsp => (spre_comma_absurd hk1 (by simp) hsp).elim, trivial⟩
      case «alias» =>
        simp only [hk1]
        have hne1 : (skipTriviaF n s).toks ≠ [] := toks_ne_nil_of_peek hk1 (by simp)
        have hpos1 := List.length_pos.mpr hne1
        obtain ⟨hgE, -⟩ := closeNode_good (Good.popLeaf (openNode .badName
          (errorB "expected a var here, not an alias"
            (peekT (skipTriviaF n s)).span (skipTriviaF n s))))
        have hgE' := (Good.errorB "expected a var here, not an alias"
          (peekT (skipTriviaF n s)).span (skipTriviaF n s)).trans hgE
        have htE : (closeNode .badName (popLeaf (openNode .badName
            (errorB "expected a var here, not an alias"
              (peekT (skipTriviaF n s)).span (skipTriviaF n s))))).toks
            = (skipTriviaF n s).toks.drop 1 := by
          rw [closeNode_toks, popLeaf_toks, openNode_toks, errorB_toks]
        have hmp : measureP (.anPart2 true)
            (closeNode .badName (popLeaf (openNode .badName
              (errorB "expected a var here, not an alias"
                (peekT (skipTriviaF n s)).span (skipTriviaF n s))))) ≤ n := by
          refine le_trans (measureP_le_of _ _) ?_
          rw [htE, List.length_drop]
          omega
        obtain ⟨hgp, -, -⟩ := ih (.anPart2 true) _ hmp trivial
        exact ⟨(hg1.trans hgE').trans hgp,
          fun hsp => (spre_comma_absurd hk1 (by simp) hsp).elim, trivial⟩
      case rparen =>
        simp only [hk1]
        refine ⟨?_, fun hsp => (spre_comma_absurd hk1 (by simp) hsp).elim, trivial⟩
        cases seen with
        | true => simpa using hg1.trans (Good.popLeaf _)
        | false =>
          simpa using hg1.trans ((Good.errorB _ _ _).trans (Good.popLeaf _))
      case comma =>
        simp only [hk1]
        have hmp : measureP (.anPart2 seen)
            (errorB "extraneous ','" (peekT (skipTriviaF n s)).span
              (skipTriviaF n s)) ≤ n := by
          simp only [measureP, rank, errorB_toks, peekKind_errorB, hk1]
          omega
        obtain ⟨hgp, hsp2, -⟩ := ih (.anPart2 seen) _ hmp trivial
        have hlt := hsp2 (by simp [SPre, hk1])
        simp only [errorB_toks] at hlt
        refine ⟨(hg1.trans (Good.errorB _ _ _)).trans hgp, fun _ => ?_, trivial⟩
        omega
      all_goals
        simp only [hk1]
        refine ⟨?_, fun hsp => (spre_comma_absurd hk1 (by simp) hsp).elim, trivial⟩
        cases seen with
        | true => simpa using hg1.trans (Good.errorB _ _ _)
        | false =>
          simpa using hg1.trans ((Good.errorB _ _ _).trans (Good.errorB _ _ _))
    | anPart2 seen =>
      simp only [runP]
      have hm6 : 100 * s.toks.length + 6 ≤ n + 1 := by
        have h6 : 6 ≤ rank (.anPart2 seen) (peekKind s) := by
          rcases hks : peekKind s <;> simp [rank]
        simp only [measureP] at hm
        omega
      have hlen : s.toks.length ≤ n := by omega
      obtain ⟨hg3, hnt3, -⟩ := skipTrivia_spec n s hlen
      have hle3 := Good.toks_le hg3
      rcases hk3 : peekKind (skipTriviaF n s) with _|_|_|_|_|_|_|_|_|_|_|_|_|_|_|_
      case comma =>
        simp only [hk3]
        have hne := toks_ne_nil_of_peek hk3 (by simp)
        have hpos := List.length_pos.mpr hne
        have hml : measureP (.anLoop seen) (popLeaf (skipTriviaF n s)) ≤ n := by
          refine le_trans (measureP_le_of _ _) ?_
          rw [popLeaf_toks, List.length_drop]
          omega
        obtain ⟨hgl, -, -⟩ := ih (.anLoop seen) _ hml trivial
        have hlel := Good.toks_le hgl
        rw [popLeaf_toks, List.length_drop] at hlel
        refine ⟨(hg3.trans (Good.popLeaf _)).trans hgl, fun _ => ?_, trivial⟩
        omega
      case rparen =>
        simp only [hk3]
        exact ⟨hg3.trans (Good.popLeaf _),
          fun hsp => (spre_comma_absurd hk3 (by simp) hsp).elim, trivial⟩
      case name | «alias» =>
        simp only [hk3]
        have hkc : peekKind s ≠ .comma :=
          fun hc => spre_comma_absurd hk3 (by simp) hc
        have hrank : rank (.anPart2 seen) (peekKind s) = 10 := by
          rcases hks : peekKind s
          case comma => exact absurd hks hkc
          all_goals simp [rank]
        have hm10 : 100 * s.toks.length + 10 ≤ n + 1 := by
          simp only [measureP, hrank] at hm
          omega
        have hml : measureP (.anLoop seen)
            (errorB "expected a ',' before this"
              (peekT (skipTriviaF n s)).span (skipTriviaF n s)) ≤ n := by
          simp only [measureP, rank, errorB_toks]
          omega
        obtain ⟨hgl, -, -⟩ := ih (.anLoop seen) _ hml trivial
        exact ⟨(hg3.trans (Good.errorB _ _ _)).trans hgl,
          fun hsp => absurd hsp hkc, trivial⟩
      all_goals
        simp only [hk3]
        exact ⟨hg3.trans (Good.errorB _ _ _),
          fun hsp => (spre_comma_absurd hk3 (by simp) hsp).elim, trivial⟩
    | parend =>
      simp only [runP]
      have hm' : 100 * s.toks.length + 15 ≤ n + 1 := by
        simpa [measureP, rank] using hm
      have hne : s.toks ≠ [] := toks_ne_nil_of_peek hpre (by simp)
      have hpos := List.length_pos.mpr hne
      have hplt := popLeaf_length_lt (s := s) hne
      have hlen1 : (popLeaf s).toks.length ≤ n := by omega
      obtain ⟨hg2, -, -⟩ := skipTrivia_spec n (popLeaf s) hlen1
      have hle2 := Good.toks_le hg2
      have hmt : measureP .tms (skipTriviaF n (popLeaf s)) ≤ n := by
        simp only [measureP, rank]; omega
      obtain ⟨hg3, -, -⟩ := ih .tms _ hmt trivial
      have hle3 := Good.toks_le hg3
      have hlen3 : (runP n .tms (skipTriviaF n (popLeaf s))).toks.length ≤ n := by
        omega
      obtain ⟨hg4, -, -⟩ := skipTrivia_spec n _ hlen3
      have hle4 := Good.toks_le hg4
      have hgchain : Good s (skipTriviaF n (runP n .tms (skipTriviaF n (popLeaf s)))) :=
        (((Good.popLeaf s).trans hg2).trans hg3).trans hg4
      rcases hk4 : peekKind (skipTriviaF n (runP n .tms (skipTriviaF n (popLeaf s)))) with
        _|_|_|_|_|_|_|_|_|_|_|_|_|_|_|_
      case rparen =>
        simp only [hk4]
        refine ⟨hgchain.trans (Good.popLeaf _), fun _ => ?_, trivial⟩
        rw [popLeaf_toks, List.length_drop]
        omega
      all_goals
        simp only [hk4]
        refine ⟨hgchain.trans (Good.errorB _ _ _), fun _ => ?_, trivial⟩
        simp only [errorB_toks]
        omega

/-! ## Totality and round-trip of `parse_module` -/

/-- Corollary of `runP_spec` at the toplevel: `_parse_module` ends
unpanicked with exactly one completed tree on the stack, whose leaf text
is the text of all tokens. -/
theorem parseModuleB_spec (cs : List Char) :
    ∃ t, (parseModuleB cs).panicked = false ∧
      (parseModuleB cs).wip = [Entry.complete t] ∧
      treeText t = toksText (tokenize cs) := by
  have hmu : measureP .moduleLoop (openNode .module (initState cs)) ≤
      moduleFuel (initState cs) := by
    refine le_trans (measureP_le_of _ _) ?_
    simp [moduleFuel, initState]
  obtain ⟨hg, -, hext⟩ := runP_spec _ .moduleLoop _ hmu trivial
  have hEof : ∀ t ∈ (openNode .module (initState cs)).toks, t.kind ≠ .eof := by
    intro t ht
    exact tokenizeF_ne_eof cs.length 0 cs t ht
  have htoks := hext hEof
  obtain ⟨hgc, t, hwip⟩ := closeNode_good hg
  refine ⟨t, ?_, ?_, ?_⟩
  · have hp := hgc.1
    simpa [initState] using hp
  · simpa [initState] using hwip
  · obtain ⟨-, -, k, es, ht, hw, -, htx⟩ := hgc
    have hes : es = [Entry.complete t] := by
      rw [hwip] at hw
      simpa [initState] using hw.symm
    have hdrop : (tokenize cs).drop k = [] := by
      have h1 : (closeNode .module
          (runP (moduleFuel (initState cs)) .moduleLoop
            (openNode .module (initState cs)))).toks = [] := by
        rw [closeNode_toks]; exact htoks
      rw [h1] at ht
      exact ht.symm
    have hk : (tokenize cs).length ≤ k := by
      have := congrArg List.length hdrop
      simp [List.length_drop] at this
      omega
    have htake : (tokenize cs).take k = tokenize cs := List.take_of_length_le hk
    rw [hes] at htx
    simp only [entriesText, List.reverse_cons, List.reverse_nil,
      List.nil_append, List.map_cons, List.map_nil, List.flatten,
      Entry.text, List.append_nil] at htx
    rw [htx]
    simp only [initState] at htake ⊢
    rw [htake]

/-- C7: for every input, `parse_module` terminates without panicking and
returns exactly one completed syntax tree plus a list of diagnostics; the
internal-contract panics in `take` and `close` are unreachable. -/
theorem parse_module_total (cs : List Char) :
    ∃ t errs, parseModule cs = some (t, errs) := by
  obtain ⟨t, hp, hw, -⟩ := parseModuleB_spec cs
  exact ⟨t, (parseModuleB cs).errors, by simp [parseModule, takeB, hp, hw]⟩

/-- C1 (amended): for every input text containing no `"` character,
concatenating the text of every leaf token of the tree returned by
`parse_module`, in leaf order, reproduces the input exactly.  (On inputs
containing `"` the lexer strips the delimiting quotes from the stored
token text, so the concatenation differs from the input.) -/
theorem parse_module_round_trip (cs : List Char)
    (hq : ∀ c ∈ cs, c ≠ Char.ofNat 34) :
    ∃ t errs, parseModule cs = some (t, errs) ∧ treeText t = cs := by
  obtain ⟨t, hp, hw, htx⟩ := parseModuleB_spec cs
  refine ⟨t, (parseModuleB cs).errors, by simp [parseModule, takeB, hp, hw], ?_⟩
  rw [htx]
  exact tokenizeF_text cs.length 0 cs le_rfl hq

/-- Witness for the amended C1 on the concrete input `Id = x => x;`. -/
theorem parse_module_round_trip_witness :
    (∀ c ∈ ("Id = x => x;".toList), c ≠ Char.ofNat 34) ∧
    ∃ t errs, parseModule ("Id = x => x;".toList) = some (t, errs) ∧
      treeText t = "Id = x => x;".toList :=
  ⟨by decide, parse_module_round_trip _ (by decide)⟩

/-- C1 counterexample: on the one-character input `"` the single token is
an `UnterminatedString` whose stored text has the quote stripped, so the
tree's concatenated leaf text is empty and does not reproduce the input. -/
theorem round_trip_cex :
    (parseModule [Char.ofNat 34]).map (fun p => treeText p.1) = some [] ∧
    ([] : List Char) ≠ [Char.ofNat 34] := by
  constructor
  · rfl
  · decide

/-! ## Typed-AST extraction (`src/syntax/parser/ast.rs`,
`src/syntax/parser/ast/from_untyped.rs`)

Extraction walks completed untyped trees.  Rust's `children.pop()`
(popping the `Vec`'s back) is `getLast?`/`dropLast`; `skip_concrete`
filters *all* leaves out (only `Inner` children survive); a `panic!` or
`expect` is modelled as `none` in the outer `Option` layer.  `From`
implementations that return `Option<T>` in Rust and cannot panic return
a plain `Option`; the term extractors, which can panic through `expect`,
return `Option (Option Term)` with the outer layer the panic. -/

namespace Ast

/-- `ast.rs` `Name`. -/
structure Name where
  text : List Char
  span : Span
  bad : Bool
deriving DecidableEq, Repr

/-- `ast.rs` `Filepath`. -/
structure Filepath where
  text : List Char
  span : Span
deriving DecidableEq, Repr

/-- `ast.rs` `Import`. -/
structure Import where
  aliases : List Name
  filepath : Option Filepath
  span : Span
deriving DecidableEq, Repr

/-- `ast.rs` `Term`. -/
inductive Term where
  | var (text : List Char) (span : Span)
  | alias (text : List Char) (span : Span)
  | abs (vars : List Name) (body : Option Term) (span : Span)
  | app (rator : Term) (rands : List Term) (span : Span)

/-- `ast.rs` `Def`. -/
structure Def where
  «alias» : Option Name
  body : Option Term
  span : Span

/-- `ast.rs` `Module`. -/
structure Module where
  imports : List Import
  defs : List Def
  span : Span

end Ast

/-- `UntypedTree::is_leaf`. -/
def UntypedTree.isLeaf : UntypedTree → Bool
  | .leaf _ => true
  | _ => false

/-- `from_untyped.rs` `skip_concrete`: drops every leaf child. -/
def skipConcrete (children : List UntypedTree) : List UntypedTree :=
  children.filter (fun c => ! c.isLeaf)

namespace Ast

/-- `From<UntypedTree> for Option<Name>`: accepts `Name`/`BadName` nodes,
taking the text of the last child when it is a leaf. -/
def nameFrom : UntypedTree → Option Name
  | .inner k span children =>
    match k with
    | .name | .badName =>
      match children.getLast? with
      | some (.leaf t) => some { text := t.text, span, bad := k = .badName }
      | _ => none
    | _ => none
  | .leaf _ => none

/-- `From<UntypedTree> for Vec<Name>`: matches only `Sk::AbsVars`; any
other node — including `Sk::ImportAliases` — falls to the catch-all and
yields the empty vector. -/
def namesFrom : UntypedTree → List Name
  | .inner .absVars _ children =>
    ((skipConcrete children).mapM nameFrom).getD []
  | _ => []

/-- `From<UntypedTree> for Option<Filepath>`. -/
def filepathFrom : UntypedTree → Option Filepath
  | .inner .impFilepath span children =>
    match children.getLast? with
    | some (.leaf t) => some { text := t.text, span }
    | _ => none
  | _ => none

/-- `From<UntypedTree> for Option<Import>`: pops the filepath child first,
then the aliases child ("Note the ordering here"). -/
def importFrom : UntypedTree → Option Import
  | .inner .imp span children =>
    let cs := skipConcrete children
    let filepath := cs.getLast?
    let aliases := cs.dropLast.getLast?
    some { aliases := (aliases.map namesFrom).getD [],
           filepath := filepath.bind filepathFrom,
           span }
  | _ => none

/-- The two mutually recursive term extractors, merged into one
fuel-indexed function: `.fromTms` is `From<UntypedTree> for Option<Term>`
(the `Sk::Tms` extractor) and `.toTerm` is `UntypedTree::to_term`. -/
inductive ExtractMode where
  | fromTms | toTerm
deriving DecidableEq, Repr

def termExF : Nat → ExtractMode → UntypedTree → Option (Option Term)
  | 0, _, _ => none
  | n + 1, .fromTms, t =>
    match t with
    | .inner .tms span children =>
      let cs := skipConcrete children
      match cs with
      | [] => some none
      | [c] => termExF n .toTerm c
      | c :: rest => do
        let rator ← termExF n .toTerm c
        match rator with
        | none => none
        | some rator => do
          let rands ← rest.mapM (termExF n .toTerm)
          some (some (.app rator ((rands.mapM id).getD []) span))
    | _ => some none
  | n + 1, .toTerm, t =>
    match t with
    | .inner k span children =>
      match k with
      | .var =>
        match children.getLast? with
        | some (.leaf tok) => some (some (.var tok.text span))
        | _ => some none
      | .aliasK =>
        match children.getLast? with
        | some (.leaf tok) => some (some (.alias tok.text span))
        | _ => some none
      | .abs => do
        let cs := skipConcrete children
        let body := cs.getLast?
        let vars := cs.dropLast.getLast?
        let bodyT ← match body with
          | some b => termExF n .fromTms b
          | none => some none
        some (some (.abs ((vars.map namesFrom).getD []) bodyT span))
      | .tms => termExF n .fromTms (.inner .tms span children)
      | _ => some none
    | .leaf _ => some none

/-- `From<UntypedTree> for Option<Term>`. -/
def termFromF (n : Nat) (t : UntypedTree) : Option (Option Term) :=
  termExF n .fromTms t

/-- `From<UntypedTree> for Option<Def>`: pops the body child first, then
the alias child. -/
def defFrom (n : Nat) : UntypedTree → Option (Option Def)
  | .inner .def_ span children => do
    let cs := skipConcrete children
    let body := cs.getLast?
    let al := cs.dropLast.getLast?
    let bodyT ← match body with
      | some b => termFromF n b
      | none => some none
    some (some { «alias» := al.bind nameFrom, body := bodyT, span })
  | _ => some none

/-- `UntypedTree::is_import`: panics (outer `none`) on anything that is
not an `Import` or `Def` inner node. -/
def isImportT : UntypedTree → Option Bool
  | .inner .imp _ _ => some true
  | .inner .def_ _ _ => some false
  | _ => none

/-- The `partition` in `Module::from`, with `is_import`'s panic
propagated. -/
def partitionImports : List UntypedTree → Option (List UntypedTree × List UntypedTree)
  | [] => some ([], [])
  | t :: ts => do
    let b ← isImportT t
    let (is, ds) ← partitionImports ts
    some (if b then (t :: is, ds) else (is, t :: ds))

/-- `From<UntypedTree> for Module`: panics (`none`) off a `Module` node;
both `collect::<Option<Vec<_>>>` results fall back to the empty list. -/
def moduleFrom (n : Nat) : UntypedTree → Option Module
  | .inner .module span children => do
    let (imps, defs) ← partitionImports (skipConcrete children)
    let imports := (imps.mapM importFrom).getD []
    let defsO ← defs.mapM (defFrom n)
    some { imports, defs := (defsO.mapM id).getD [], span }
  | _ => none

end Ast

/-- C4: the typed `Import` node never receives the aliases written between
the braces: `Vec<Name>::from` matches only `Sk::AbsVars`, and the builder
tags the aliases list `Sk::ImportAliases`, so its catch-all returns the
empty vector.  On `import \x7b Id, K \x7d from "./common";` the
extracted import has `aliases = []` (not `Id`, `K`) even though the
filepath is extracted correctly. -/
theorem import_aliases_dropped :
    (∀ sp cs, Ast.namesFrom (.inner .impAliases sp cs) = []) ∧
    ((parseModule "import \x7b Id, K \x7d from \"./common\";".toList).bind
        (fun p => Ast.moduleFrom 100 p.1)).map
      (fun m => m.imports.map (fun i => (i.aliases, i.filepath.map Ast.Filepath.text)))
      = some [([], some "./common".toList)] := by
  constructor
  · intro sp cs; rfl
  · rfl

/-! ## Term pipeline (`src/terms.rs`)

`terms.rs` is written against an earlier shape of the syntax types than
`ast.rs` currently exports: its `SurfaceTerm` pattern-matches an `App`
with an `Option` operator and its `Name` is read through an `ok` field
(where `ast.rs` has `bad`).  The embedding follows `terms.rs` itself: a
`TName` with the `ok` flag it reads, and a surface term whose operator is
optional.  `Box<T>` is direct nesting, `Rc<String>` is `List Char`,
`SourceInfo` is `Span`.  The recursion through `Option`/`Vec` boxes is
fuel-indexed (`none` = out of fuel); every theorem quantifies over or
instantiates the fuel. -/

namespace Terms

/-- The `Name` as `terms.rs` uses it (`v.text`, `var.ok`). -/
structure TName where
  text : List Char
  ok : Bool
deriving DecidableEq, Repr

/-- `SurfaceTerm` as `terms.rs` pattern-matches it. -/
inductive STerm where
  | var (text : List Char) (info : Span)
  | alias (text : List Char) (info : Span)
  | abs (vars : List TName) (body : Option STerm) (info : Span)
  | app (rator : Option STerm) (rands : List STerm) (info : Span)

/-- `DesugaredTerm`. -/
inductive DTerm where
  | var (text : List Char) (info : Span)
  | alias (text : List Char) (info : Span)
  | abs (var : Option TName) (body : Option DTerm) (info : Span)
  | app (rator : Option DTerm) (rand : Option DTerm) (info : Span)

/-- `IndexedTerm`. -/
inductive ITerm where
  | index (index : Option Nat) (info : Span)
  | alias (text : List Char) (info : Span)
  | abs (var : Option TName) (body : Option ITerm) (info : Span)
  | app (rator : Option ITerm) (rand : Option ITerm) (info : Span)

/-- `ResolvedTerm`. -/
inductive RTerm where
  | index (index : Option Nat) (info : Span)
  | abs (var : Option TName) (body : Option RTerm) (info : Span)
  | app (rator : Option RTerm) (rand : Option RTerm) (info : Span)

/-- `SurfaceTerm::desugar`.  `Abs`: `vars.pop()` takes the last binder for
the innermost node, then the *forward* fold over the remaining binders
wraps each around the accumulator.  `App`: `rands` is reversed, the pop
takes the original first operand, then the forward fold over the reversed
remainder wraps each around the accumulator. -/
def desugarF : Nat → STerm → Option DTerm
  | 0, _ => none
  | _ + 1, .var text info => some (.var text info)
  | _ + 1, .alias text info => some (.alias text info)
  | n + 1, .abs vars body info => do
    let bodyD ← match body with
      | some b => (desugarF n b).map some
      | none => some none
    let init := DTerm.abs vars.getLast? bodyD info
    some (vars.dropLast.foldl
      (fun bdy var => DTerm.abs (some var) (some bdy) info) init)
  | n + 1, .app rator rands info => do
    let ratorD ← match rator with
      | some r => (desugarF n r).map some
      | none => some none
    let rev := rands.reverse
    let firstD ← match rev.getLast? with
      | some r => (desugarF n r).map some
      | none => some none
    let init := DTerm.app ratorD firstD info
    rev.dropLast.foldlM
      (fun rat rand => do
        let rd ← desugarF n rand
        some (DTerm.app (some rat) (some rd) info)) init

/-- `DesugaredTerm::resugar`.  Modelled from the source: `todo!()` panics
unconditionally, i.e. no input produces a value. -/
def resugar (_ : DTerm) : Option STerm := none

/-- `DesugaredTerm::index_using`: state-passing rendering of the two
`&mut` arguments (error sink, bound-variable stack, its back the
innermost binder).  The result triples the indexed term with both. -/
def indexUsingF : Nat → DTerm → List SimpleError → List TName →
    Option (ITerm × List SimpleError × List TName)
  | 0, _, _, _ => none
  | _ + 1, .var text info, errors, bv =>
    let index := bv.reverse.findIdx? (fun v => v.text == text)
    let errors := if index.isNone
      then errors ++ [⟨"unbound variable", info⟩] else errors
    some (.index index info, errors, bv)
  | _ + 1, .alias text info, errors, bv => some (.alias text info, errors, bv)
  | n + 1, .abs var body info, errors, bv =>
    match var with
    | some v =>
      if v.ok then do
        let (bodyI, errors, bv) ← match body with
          | some b => do
            let (bi, e, b') ← indexUsingF n b errors (bv ++ [v])
            some (some bi, e, b')
          | none => some (none, errors, bv ++ [v])
        some (.abs bv.getLast? bodyI info, errors, bv.dropLast)
      else do
        let (bodyI, errors, bv) ← match body with
          | some b => do
            let (bi, e, b') ← indexUsingF n b errors bv
            some (some bi, e, b')
          | none => some (none, errors, bv)
        some (.abs (some v) bodyI info, errors, bv)
    | none => do
      let errors := errors ++ [⟨"abstraction needs at least one var", info⟩]
      let (bodyI, errors, bv) ← match body with
        | some b => do
          let (bi, e, b') ← indexUsingF n b errors bv
          some (some bi, e, b')
        | none => some (none, errors, bv)
      some (.abs none bodyI info, errors, bv)
  | n + 1, .app rator rand info, errors, bv => do
    let (ratorI, errors, bv) ← match rator with
      | some r => do
        let (ri, e, b') ← indexUsingF n r errors bv
        some (some ri, e, b')
      | none => some (none, errors, bv)
    let (randI, errors, bv) ← match rand with
      | some r => do
        let (ri, e, b') ← indexUsingF n r errors bv
        some (some ri, e, b')
      | none => some (none, errors, bv)
    some (.app ratorI randI info, errors, bv)

/-- `DesugaredTerm::index`: fresh error sink and empty scope. -/
def indexF (n : Nat) (t : DTerm) : Option (ITerm × List SimpleError) :=
  (indexUsingF n t [] []).map (fun r => (r.1, r.2.1))

/-- `IndexedTerm::unindex`.  Modelled from the source: `todo!()` panics
unconditionally. -/
def unindex (_ : ITerm) : Option DTerm := none

/-- `Environment` is a placeholder (`pub type Environment = usize`). -/
def Environment : Type := Nat

/-- `IndexedTerm::resolve`.  Modelled from the source: `todo!()` panics
unconditionally. -/
def resolve (_ : ITerm) (_ : Environment) : Option (RTerm × List SimpleError) := none

end Terms

/-- C2: desugaring scrambles the binder order of an n-ary abstraction for
n ≥ 3.  The source pops the *last* binder for the innermost node but then
folds *forward* over the remaining binders, so `(x, y, z) => w` desugars
to `y => (x => (z => w))` — not the claimed `x => (y => (z => w))`. -/
theorem desugar_abs_scrambled :
    Terms.desugarF 2 (Terms.STerm.abs
        [⟨"x".toList, true⟩, ⟨"y".toList, true⟩, ⟨"z".toList, true⟩]
        (some (.var "w".toList ⟨6, 7⟩)) ⟨0, 7⟩) =
      some (Terms.DTerm.abs (some ⟨"y".toList, true⟩)
        (some (.abs (some ⟨"x".toList, true⟩)
          (some (.abs (some ⟨"z".toList, true⟩)
            (some (.var "w".toList ⟨6, 7⟩)) ⟨0, 7⟩)) ⟨0, 7⟩)) ⟨0, 7⟩) ∧
    Terms.DTerm.abs (some ⟨"y".toList, true⟩)
        (some (.abs (some ⟨"x".toList, true⟩)
          (some (.abs (some ⟨"z".toList, true⟩)
            (some (.var "w".toList ⟨6, 7⟩)) ⟨0, 7⟩)) ⟨0, 7⟩)) ⟨0, 7⟩ ≠
      Terms.DTerm.abs (some ⟨"x".toList, true⟩)
        (some (.abs (some ⟨"y".toList, true⟩)
          (some (.abs (some ⟨"z".toList, true⟩)
            (some (.var "w".toList ⟨6, 7⟩)) ⟨0, 7⟩)) ⟨0, 7⟩)) ⟨0, 7⟩ := by
  refine ⟨rfl, ?_⟩
  intro h
  simp only [Terms.DTerm.abs.injEq, Option.some.injEq, Terms.TName.mk.injEq] at h
  have := h.1.1
  simp at this

/-- C3: desugaring scrambles the operand order of an n-ary application for
n ≥ 3.  The source reverses `rands`, pops the original first operand, then
folds *forward* over the reversed remainder, so `f a b c` desugars to
`((f a) c) b` — not the claimed `((f a) b) c`. -/
theorem desugar_app_scrambled :
    Terms.desugarF 2 (Terms.STerm.app (some (.var "f".toList ⟨0, 1⟩))
        [.var "a".toList ⟨2, 3⟩, .var "b".toList ⟨4, 5⟩, .var "c".toList ⟨6, 7⟩]
        ⟨0, 7⟩) =
      some (Terms.DTerm.app
        (some (.app
          (some (.app (some (.var "f".toList ⟨0, 1⟩))
            (some (.var "a".toList ⟨2, 3⟩)) ⟨0, 7⟩))
          (some (.var "c".toList ⟨6, 7⟩)) ⟨0, 7⟩))
        (some (.var "b".toList ⟨4, 5⟩)) ⟨0, 7⟩) ∧
    Terms.DTerm.app
        (some (.app
          (some (.app (some (.var "f".toList ⟨0, 1⟩))
            (some (.var "a".toList ⟨2, 3⟩)) ⟨0, 7⟩))
          (some (.var "c".toList ⟨6, 7⟩)) ⟨0, 7⟩))
        (some (.var "b".toList ⟨4, 5⟩)) ⟨0, 7⟩ ≠
      Terms.DTerm.app
        (some (.app
          (some (.app (some (.var "f".toList ⟨0, 1⟩))
            (some (.var "a".toList ⟨2, 3⟩)) ⟨0, 7⟩))
          (some (.var "b".toList ⟨4, 5⟩)) ⟨0, 7⟩))
        (some (.var "c".toList ⟨6, 7⟩)) ⟨0, 7⟩ := by
  refine ⟨rfl, ?_⟩
  intro h
  simp only [Terms.DTerm.app.injEq, Option.some.injEq, Terms.DTerm.var.injEq] at h
  have := h.2.1
  simp at this

namespace Terms

/-- Specification-side resolution: scan the binder stack innermost-first;
a match at the innermost binder is index 0, otherwise one more than the
index among the remaining (outer) binders; `none` if nothing matches. -/
def nearestFrom : List TName → List Char → Option Nat
  | [], _ => none
  | v :: rest, text =>
    if v.text = text then some 0 else (nearestFrom rest text).map (· + 1)

/-- The nearest enclosing binder with the given text, counted from the
innermost binder (the stack's back) as index 0. -/
def nearestBinderIndex (bv : List TName) (text : List Char) : Option Nat :=
  nearestFrom bv.reverse text

/-- `Iterator::rev().position(..)` agrees with the specification-side
innermost-first scan. -/
theorem findIdx_eq_nearestFrom (text : List Char) :
    ∀ (l : List TName) (i : Nat),
      l.findIdx? (fun v => v.text == text) i = (nearestFrom l text).map (· + i) := by
  intro l
  induction l with
  | nil => intro i; rfl
  | cons v rest ih =>
    intro i
    by_cases h : v.text = text
    · simp [List.findIdx?, nearestFrom, h]
    · have hb : (v.text == text) = false := by simp [h]
      simp only [List.findIdx?, nearestFrom, hb, if_neg h, cond_false]
      rw [ih (i + 1)]
      cases nearestFrom rest text
      · simp
      · simp
        omega

end Terms

/-- C6: a `Var` occurrence is resolved to the nearest enclosing binder
with the same text, innermost = index 0; when no binder matches, the
occurrence stores `none`, exactly one "unbound variable" diagnostic is
appended, and elaboration continues.  Concretely: the lone `x` in an
empty scope yields `index = none` with exactly one diagnostic, and in
`(x => x) y` the bound `x` resolves to index 0 while the unbound `y`
produces `none` plus one diagnostic without aborting the term. -/
theorem unbound_variable_handling :
    (∀ (n : Nat) (text : List Char) (info : Span) (errors : List SimpleError)
        (bv : List Terms.TName),
      Terms.indexUsingF (n + 1) (.var text info) errors bv =
        some (.index (Terms.nearestBinderIndex bv text) info,
          errors ++ (if (Terms.nearestBinderIndex bv text).isNone
            then [⟨"unbound variable", info⟩] else []),
          bv)) ∧
    Terms.indexF 1 (.var "x".toList ⟨0, 1⟩) =
      some (.index none ⟨0, 1⟩, [⟨"unbound variable", ⟨0, 1⟩⟩]) ∧
    Terms.indexF 3 (.app
        (some (.abs (some ⟨"x".toList, true⟩)
          (some (.var "x".toList ⟨6, 7⟩)) ⟨1, 7⟩))
        (some (.var "y".toList ⟨9, 10⟩)) ⟨0, 10⟩) =
      some (.app
        (some (.abs (some ⟨"x".toList, true⟩)
          (some (.index (some 0) ⟨6, 7⟩)) ⟨1, 7⟩))
        (some (.index none ⟨9, 10⟩)) ⟨0, 10⟩,
        [⟨"unbound variable", ⟨9, 10⟩⟩]) := by
  refine ⟨?_, rfl, rfl⟩
  intro n text info errors bv
  simp only [Terms.indexUsingF, Terms.nearestBinderIndex]
  rw [Terms.findIdx_eq_nearestFrom]
  have hmap : (Terms.nearestFrom bv.reverse text).map (· + 0) =
      Terms.nearestFrom bv.reverse text := by
    cases Terms.nearestFrom bv.reverse text <;> simp
  rw [hmap]
  by_cases hn : (Terms.nearestFrom bv.reverse text).isNone = true
  · simp [hn]
  · simp [hn]

/-- C10: the resugaring (`DesugaredTerm::resugar`), unindexing
(`IndexedTerm::unindex`) and alias-resolution (`IndexedTerm::resolve`)
directions of the pipeline are unimplemented `todo!()` stubs: every call
panics unconditionally, for every input, instead of producing a value or
a diagnostic. -/
theorem pipeline_stubs :
    (∀ t, Terms.resugar t = none) ∧ (∀ t, Terms.unindex t = none) ∧
    (∀ t env, Terms.resolve t env = none) :=
  ⟨fun _ => rfl, fun _ => rfl, fun _ _ => rfl⟩

/-! ## Normalisation by evaluation (`src/nbe.rs`)

`Rc`-shared immutable data is plain inductive data; `Name(Rc<String>)` is
`List Char`; the custom persistent `List<T>` (cons/`get`/`includes`) is
`List` with `get?`/`contains`.  A `Thunk`'s `RefCell` interior mutability
is rendered functionally: `thawF` returns the value *and* the thunk's new
content, and callers that only need the value drop the update (sharing
affects only how often work is repeated, never which value results).  All
recursion is fuel-indexed: `none` is out-of-fuel or the `unwrap` panic on
an out-of-range de Bruijn index. -/

namespace Nbe

/-- `_Term`. -/
inductive NTerm where
  | index (index : Nat)
  | abs (name : List Char) (body : NTerm)
  | app (rator : NTerm) (rand : NTerm)
deriving DecidableEq, Repr

mutual

/-- `_Value`. -/
inductive NValue where
  | closure (name : List Char) (body : NTerm) (env : List NValue)
  | stuck (s : NStuck)
  | thunk (t : NThunk)

/-- `_Stuck`. -/
inductive NStuck where
  | index (binderCount : Nat)
  | app (op : NStuck) (arg : NValue)

/-- `ThunkContent`. -/
inductive NThunk where
  | frozen (term : NTerm) (env : List NValue)
  | thawed (v : NValue)

end

/-- `Name::freshen_in`'s tick loop: keep appending `'` until the candidate
is unused.  The loop always terminates because each candidate is longer
than the last and `used` is finite; the fuel-exhaustion fallback is
unreachable when the fuel exceeds `used.length`. -/
def freshenGo : Nat → List Char → List Char → List (List Char) → List Char
  | 0, name, ticks, _ => name ++ ticks
  | n + 1, name, ticks, used =>
    let ticks := ticks ++ [Char.ofNat 39]
    let candidate := name ++ ticks
    if used.contains candidate then freshenGo n name ticks used
    else candidate

/-- `Name::freshen_in`. -/
def freshenIn (name : List Char) (used : List (List Char)) : List Char :=
  if used.contains name then freshenGo (used.length + 1) name [] used
  else name

mutual

/-- `Term::eval`. -/
def evalF : Nat → NTerm → List NValue → Option NValue
  | 0, _, _ => none
  | _ + 1, .index i, env => env.get? i
  | _ + 1, .abs name body, env => some (.closure name body env)
  | n + 1, .app rator rand, env => do
    let op ← evalF n rator env
    let rnd ← evalOrFreezeF n rand env
    applyF n op rnd

/-- `Term::eval_or_freeze`: an application is frozen into a thunk, any
other term is evaluated eagerly. -/
def evalOrFreezeF : Nat → NTerm → List NValue → Option NValue
  | 0, _, _ => none
  | _ + 1, .app rator rand, env => some (.thunk (.frozen (.app rator rand) env))
  | n + 1, .index i, env => evalF n (.index i) env
  | n + 1, .abs name body, env => evalF n (.abs name body) env

/-- `Value::apply`. -/
def applyF : Nat → NValue → NValue → Option NValue
  | 0, _, _ => none
  | n + 1, .closure _ body env, arg => evalF n body (arg :: env)
  | _ + 1, .stuck op, arg => some (.stuck (.app op arg))
  | n + 1, .thunk th, arg => do
    let (op, _) ← thawF n th
    applyF n op arg

/-- `Thunk::thaw`: frozen content is evaluated and replaced by the value;
thawed content is returned as-is (without consuming fuel, i.e. without
any re-evaluation). -/
def thawF : Nat → NThunk → Option (NValue × NThunk)
  | _, .thawed v => some (v, .thawed v)
  | 0, .frozen _ _ => none
  | n + 1, .frozen term env => do
    let v ← evalF n term env
    some (v, .thawed v)

/-- `Value::quote_from`. -/
def quoteFromF : Nat → NValue → Nat → List (List Char) → Option NTerm
  | 0, _, _, _ => none
  | n + 1, .closure name body env, binderCount, usedNames => do
    let newBinderCount := binderCount + 1
    let proxyArg := NValue.stuck (.index newBinderCount)
    let bodyVal ← evalF n body (proxyArg :: env)
    let name := freshenIn name usedNames
    let bodyT ← quoteFromF n bodyVal newBinderCount (name :: usedNames)
    some (.abs name bodyT)
  | n + 1, .stuck s, binderCount, usedNames =>
    stuckQuoteFromF n s binderCount usedNames
  | n + 1, .thunk th, binderCount, usedNames => do
    let (v, _) ← thawF n th
    quoteFromF n v binderCount usedNames

/-- `Stuck::quote_from`: an index placeholder created at binder depth
`creationBinderCount` quotes, at depth `binderCount`, to de Bruijn index
`binderCount - creationBinderCount`. -/
def stuckQuoteFromF : Nat → NStuck → Nat → List (List Char) → Option NTerm
  | 0, _, _, _ => none
  | _ + 1, .index creationBinderCount, binderCount, _ =>
    some (.index (binderCount - creationBinderCount))
  | n + 1, .app op arg, binderCount, usedNames => do
    let rator ← stuckQuoteFromF n op binderCount usedNames
    let rand ← quoteFromF n arg binderCount usedNames
    some (.app rator rand)

end

/-- `Value::quote`. -/
def quoteF (n : Nat) (v : NValue) : Option NTerm := quoteFromF n v 0 []

/-- `Term::norm`. -/
def normF (n : Nat) (t : NTerm) : Option NTerm := do
  let v ← evalF n t []
  quoteF n v

end Nbe

/-- C5: quoting a `Stuck` placeholder created at binder depth `d`, at
current depth `D`, yields de Bruijn index `D - d`; consequently
normalising the K combinator `x => y => x` (core `Abs(Abs(Index 1))`)
returns a two-binder term whose inner body is `Index 1`, the index
pointing two binders up. -/
theorem stuck_quote_depth :
    (∀ (n d D : Nat) (used : List (List Char)),
      Nbe.stuckQuoteFromF (n + 1) (.index d) D used = some (.index (D - d))) ∧
    Nbe.normF 10 (.abs "x".toList (.abs "y".toList (.index 1))) =
      some (.abs "x".toList (.abs "y".toList (.index 1))) :=
  ⟨fun _ _ _ _ => rfl, rfl⟩

/-- C9: the first `thaw` of a frozen thunk evaluates its term in its
captured environment, stores the value, and returns it; a `thaw` of a
thawed thunk returns the stored value even with zero fuel, i.e. without
any re-evaluation; and a successful `thaw` always leaves the thunk
thawed with the returned value, so the transition is never reversed and
repeated thaws return the same value. -/
theorem thunk_thaw_memoized :
    (∀ (n : Nat) (term : Nbe.NTerm) (env : List Nbe.NValue) (v : Nbe.NValue),
      Nbe.evalF n term env = some v →
        Nbe.thawF (n + 1) (.frozen term env) = some (v, .thawed v)) ∧
    (∀ v : Nbe.NValue, Nbe.thawF 0 (.thawed v) = some (v, .thawed v)) ∧
    (∀ (n : Nat) (th : Nbe.NThunk) (v : Nbe.NValue) (th' : Nbe.NThunk),
      Nbe.thawF n th = some (v, th') →
        th' = .thawed v ∧ ∀ m, Nbe.thawF m th' = some (v, .thawed v)) := by
  refine ⟨?_, fun v => rfl, ?_⟩
  · intro n term env v h
    simp [Nbe.thawF, h]
  · intro n th v th' h
    cases th with
    | thawed w =>
      simp only [Nbe.thawF, Option.some.injEq, Prod.mk.injEq] at h
      obtain ⟨rfl, rfl⟩ := h
      exact ⟨rfl, fun m => by simp [Nbe.thawF]⟩
    | frozen term env =>
      cases n with
      | zero => simp [Nbe.thawF] at h
      | succ n =>
        simp only [Nbe.thawF, Option.bind_eq_bind] at h
        cases he : Nbe.evalF n term env with
        | none => rw [he] at h; simp at h
        | some w =>
          rw [he] at h
          simp only [Option.some_bind, Option.some.injEq, Prod.mk.injEq] at h
          obtain ⟨rfl, rfl⟩ := h
          exact ⟨rfl, fun m => by simp [Nbe.thawF]⟩

/-- Witness for C9 at a concrete thunk: thawing `x => x` frozen in the
empty environment evaluates it to the identity closure and stores it, and
the stored value is returned by a zero-fuel re-thaw. -/
theorem thunk_thaw_memoized_witness :
    (Nbe.evalF 1 (.abs "x".toList (.index 0)) []
      = some (.closure "x".toList (.index 0) [])) ∧
    Nbe.thawF 2 (.frozen (.abs "x".toList (.index 0)) [])
      = some (.closure "x".toList (.index 0) [],
        .thawed (.closure "x".toList (.index 0) [])) ∧
    Nbe.thawF 0 (.thawed (.closure "x".toList (.index 0) [])) =
      some (.closure "x".toList (.index 0) [], .thawed (.closure "x".toList (.index 0) [])) :=
  ⟨rfl, thunk_thaw_memoized.1 1 _ _ _ rfl, thunk_thaw_memoized.2.1 _⟩

/-- `starts_single_abs`'s trivia scan agrees with `find?` by the
non-trivial predicate. -/
theorem startsSingleAbsGo_iff : ∀ l : List Token,
    (startsSingleAbsGo l = true ↔
      ∃ t, l.find? (fun t => ! t.kind.isTrivial) = some t ∧ t.kind = .arrow) := by
  intro l
  induction l with
  | nil => simp [startsSingleAbsGo]
  | cons t r ih =>
    by_cases h : t.isTrivial
    · have hb : (! t.kind.isTrivial) = false := by
        simp [Token.isTrivial] at h; simp [h]
      simp [startsSingleAbsGo, h, List.find?_cons, hb, ih]
    · have hb : (! t.kind.isTrivial) = true := by
        simp [Token.isTrivial] at h; simp [h]
      simp [startsSingleAbsGo, h, List.find?_cons, hb]

/-- C8: from a `Name` token, `starts_single_abs` is true exactly when the
next non-trivia token is an `Arrow`; when it is true the parser's `tm`
dispatch takes the single-variable-abstraction branch; and on the inputs
`x => x`, `x`·newline·`=>y` and `several names => x` it returns true,
true and false respectively. -/
theorem starts_single_abs_agreement :
    (∀ s : BState, peekKind s = .name →
      (startsSingleAbs s = true ↔
        ∃ t, (s.toks.drop 1).find? (fun t => ! t.kind.isTrivial) = some t ∧
          t.kind = .arrow)) ∧
    (∀ (n : Nat) (s : BState), peekKind s = .name → startsSingleAbs s = true →
      runP (n + 1) .tm s = runP n .singleAbs s) ∧
    startsSingleAbs (initState "x => x".toList) = true ∧
    startsSingleAbs (initState "x\n=>y".toList) = true ∧
    startsSingleAbs (initState "several names => x".toList) = false := by
  refine ⟨fun s _ => startsSingleAbsGo_iff _, ?_, rfl, rfl, rfl⟩
  intro n s hk hssa
  simp only [runP, hk, hssa, if_true]

/-- Witness for C8 on the concrete input `x => x`. -/
theorem starts_single_abs_agreement_witness :
    peekKind (initState "x => x".toList) = .name ∧
    startsSingleAbs (initState "x => x".toList) = true ∧
    (startsSingleAbs (initState "x => x".toList) = true ↔
      ∃ t, ((initState "x => x".toList).toks.drop 1).find?
        (fun t => ! t.kind.isTrivial) = some t ∧ t.kind = .arrow) ∧
    runP 1 .tm (initState "x => x".toList) =
      runP 0 .singleAbs (initState "x => x".toList) :=
  ⟨rfl, rfl, starts_single_abs_agreement.1 _ rfl,
    starts_single_abs_agreement.2.1 0 _ rfl rfl⟩

end Lammy
